import Mathlib

/-!
Verification development for the stock-trading-engine matching kernel
(`src/engine/matchingEngine.js`, `src/services/ordersService.js`).

Modelling conventions:
* JavaScript/Postgres NUMERIC values are modelled as exact rationals (`ℚ`).
  All arithmetic the engine performs (`Number(..)` coercions, `Math.min`,
  `Math.max`, subtraction) is exact on the inputs the claims examine; the
  one place where the binary-float/string representation itself matters
  (the `String(price)` map keys of the book) is modelled separately with
  explicit decimal strings (see the `StrBook` section below).
* `side`, `type` and `status` are kept as the raw strings the JS code
  compares against ("buy", "limit", "open", ...).  The JS code tests
  `order.side === "buy"` and treats every other value as the sell side;
  the model does the same.
* JS `Map` objects and the Postgres `orders`/`trades` relations are
  modelled as association lists / lists of rows.  `uuidv4()` is modelled
  by a fresh-id counter carried in the database state.
* The `while` loop of `processIncomingOrder` is modelled with explicit
  fuel; running out of fuel behaves like `break` (it can only cut the run
  short, so safety statements are proved for every fuel value).
* The Redis order book (`orderbook/orderBook.js`) is a separate store that
  the matching engine's in-memory `books` never read; calls to
  `OrderBook.addOrder` / `OrderBook.removeOrder` therefore have no effect
  on the state modelled here and are dropped (with comments at each site).
-/

namespace StockEngine

/-- A row of the `orders` relation; the same record is the in-memory order
object held by the engine's book (the JS book stores the very objects the
service layer produced, with the same fields).  `otype` is the JS field
`type`. -/
structure Order where
  id : Nat
  client_id : String := ""
  instrument : String := ""
  side : String := ""
  otype : String := ""
  price : Option ℚ := none
  quantity : ℚ := 0
  remaining_quantity : ℚ := 0
  status : String := ""
  created_at : Nat := 0
  idempotency_key : Option String := none
deriving Repr, DecidableEq

/-- A row of the `trades` relation (`traded_at` is not modelled; no claim
depends on it). -/
structure Trade where
  id : Nat
  buy_order_id : Nat
  sell_order_id : Nat
  instrument : String
  price : ℚ
  quantity : ℚ
deriving Repr, DecidableEq

/-- The durable store: the two relations plus a fresh-id counter that
models `uuidv4()`. -/
structure Db where
  orders : List Order := []
  trades : List Trade := []
  nextId : Nat := 0
deriving Repr, DecidableEq

/-- `Number(order.price)`: JS `Number(null) = 0`, otherwise the value. -/
def jsNum (p : Option ℚ) : ℚ := p.getD 0

/-- `SELECT * FROM orders WHERE id=$1` (first matching row). -/
def findRow : List Order → Nat → Option Order
  | [], _ => none
  | r :: rest, oid => if r.id = oid then some r else findRow rest oid

/-- `UPDATE orders SET remaining_quantity=$1, status=$2 WHERE id=$3`. -/
def updateRow (orders : List Order) (oid : Nat) (rem : ℚ) (st : String) :
    List Order :=
  orders.map fun r =>
    if r.id = oid then { r with remaining_quantity := rem, status := st } else r

/-- Association-list lookup, modelling `Map.get` / `Map.has`. -/
def alGet {κ α : Type} [DecidableEq κ] : List (κ × α) → κ → Option α
  | [], _ => none
  | (k, v) :: rest, k' => if k = k' then some v else alGet rest k'

/-- Association-list update, modelling `Map.set` (a fresh key is appended,
matching JS `Map` insertion order). -/
def alSet {κ α : Type} [DecidableEq κ] : List (κ × α) → κ → α → List (κ × α)
  | [], k', v' => [(k', v')]
  | (k, v) :: rest, k', v' =>
    if k = k' then (k', v') :: rest else (k, v) :: alSet rest k' v'

/-- Association-list removal, modelling `Map.delete`. -/
def alDel {κ α : Type} [DecidableEq κ] : List (κ × α) → κ → List (κ × α)
  | [], _ => []
  | (k, v) :: rest, k' => if k = k' then rest else (k, v) :: alDel rest k'

/-- One instrument's in-memory book: `{ bids, asks, bidPrices, askPrices }`.
The JS `Map` keys are `String(order.price)`; here they are carried as the
numeric price value, which coincides with the string keying whenever the
prices are in canonical decimal form (the divergence for non-canonical
strings such as "100.00" is the subject of the decimal-discipline model
below). -/
structure Book where
  bids : List (ℚ × List Order) := []
  asks : List (ℚ × List Order) := []
  bidPrices : List ℚ := []
  askPrices : List ℚ := []
deriving Repr, DecidableEq

/-- `insertPriceSorted(prices, price, descending)`: skip if present, else
push and sort ascending (descending for bids). -/
def insertPriceSorted (prices : List ℚ) (price : ℚ) (descending : Bool) :
    List ℚ :=
  if price ∈ prices then prices
  else if descending then
    List.insertionSort (fun a b : ℚ => a ≥ b) (prices ++ [price])
  else
    List.insertionSort (fun a b : ℚ => a ≤ b) (prices ++ [price])

/-- `removePrice(prices, price)`: splice out the first occurrence. -/
def removePrice (prices : List ℚ) (price : ℚ) : List ℚ := prices.erase price

/-- `addOrderToBook(order)`: push the order at the tail of its price level
(creating the level if absent) and record the price in the sorted price
array.  Non-limit orders and null prices are ignored. -/
def addOrderToBook (book : Book) (order : Order) : Book :=
  if order.otype = "limit" ∧ order.price ≠ none then
    let priceKey := jsNum order.price
    if order.side = "buy" then
      { book with
        bids := alSet book.bids priceKey
          ((alGet book.bids priceKey).getD [] ++ [order])
        bidPrices := insertPriceSorted book.bidPrices priceKey true }
    else
      { book with
        asks := alSet book.asks priceKey
          ((alGet book.asks priceKey).getD [] ++ [order])
        askPrices := insertPriceSorted book.askPrices priceKey false }
  else book

/-- The side book the incoming order trades against
(`isBuy ? book.asks : book.bids`). -/
def oppMap (book : Book) (isBuy : Bool) : List (ℚ × List Order) :=
  if isBuy then book.asks else book.bids

/-- Replace the opposite side's level map. -/
def setOppMap (book : Book) (isBuy : Bool) (m : List (ℚ × List Order)) :
    Book :=
  if isBuy then { book with asks := m } else { book with bids := m }

/-- The opposite side's sorted price array. -/
def oppPrices (book : Book) (isBuy : Bool) : List ℚ :=
  if isBuy then book.askPrices else book.bidPrices

/-- Replace the opposite side's price array. -/
def setOppPrices (book : Book) (isBuy : Bool) (ps : List ℚ) : Book :=
  if isBuy then { book with askPrices := ps } else { book with bidPrices := ps }

/-- `incoming.side === "buy"`: any other value selects the sell branch. -/
def isBuySide (o : Order) : Bool := decide (o.side = "buy")

/-- Result of one `processIncomingOrder` call: the returned `trades` array,
the updated in-memory book and durable store, and whether the call threw
(`throw new Error("Incoming order missing")` after rolling the unit back). -/
structure MatchResult where
  trades : List Trade
  book : Book
  db : Db
  err : Bool
deriving Repr, DecidableEq

/-- `removePrice` on the opposite side's price array (lines 133-134): the
level map is left alone on this path. -/
def priceCut (book : Book) (isBuy : Bool) (bestPrice : ℚ) : Book :=
  setOppPrices book isBuy (removePrice (oppPrices book isBuy) bestPrice)

/-- `oppList.shift()` without any level/price cleanup (lines 165, 175):
the level's list is replaced by its tail. -/
def setLevel (book : Book) (isBuy : Bool) (bestPrice : ℚ) (l : List Order) :
    Book :=
  setOppMap book isBuy (alSet (oppMap book isBuy) bestPrice l)

/-- `oppList.shift()` followed by level deletion and `removePrice` when the
list empties (lines 141-148 and 232-238). -/
def dropHeadClean (book : Book) (isBuy : Bool) (bestPrice : ℚ)
    (restTail : List Order) : Book :=
  if restTail = [] then
    setOppPrices (setOppMap book isBuy (alDel (oppMap book isBuy) bestPrice))
      isBuy (removePrice (oppPrices book isBuy) bestPrice)
  else setLevel book isBuy bestPrice restTail

/-- The trade row the durability unit inserts (lines 181-193): price is
`Number(resting.price)`, quantity the clamped `finalTradeQty`, legs mapped
by the incoming side, id freshly drawn. -/
def theTrade (incoming : Order) (db : Db) (resting : Order) (q : ℚ) : Trade :=
  { id := db.nextId
    buy_order_id := if isBuySide incoming then incoming.id else resting.id
    sell_order_id := if isBuySide incoming then resting.id else incoming.id
    instrument := incoming.instrument
    price := jsNum resting.price
    quantity := q }

/-- The durable state after the unit commits (lines 181-229): the trade is
inserted, the resting row's remaining becomes `dbAvail - q` (status
filled/partially_filled), and the incoming row's remaining becomes
`max(0, dbIncomingRem - q)` — `inRow` is the incoming row as re-read after
the resting update. -/
def commitDb (db : Db) (incoming resting rRow inRow : Order) (q : ℚ) : Db :=
  { orders :=
      updateRow
        (updateRow db.orders resting.id (rRow.remaining_quantity - q)
          (if rRow.remaining_quantity - q = 0 then "filled" else "partially_filled"))
        incoming.id (max 0 (inRow.remaining_quantity - q))
        (if max 0 (inRow.remaining_quantity - q) = 0 then "filled" else "partially_filled")
    trades := db.trades ++ [theTrade incoming db resting q]
    nextId := db.nextId + 1 }

/-- The in-memory book after the unit commits (lines 231-239): the level
head's remaining is overwritten; a drained head is shifted out with
cleanup. -/
def commitBook (book : Book) (isBuy : Bool) (bestPrice : ℚ)
    (resting : Order) (restTail : List Order) (newRem : ℚ) : Book :=
  if newRem = 0 then dropHeadClean book isBuy bestPrice restTail
  else
    setLevel book isBuy bestPrice
      ({ resting with remaining_quantity := newRem } :: restTail)

/-- The `while (incomingRemaining > 0)` loop of `processIncomingOrder`
(matchingEngine.js lines 119-261), translated branch by branch:
* empty opposite price array → `break`;
* limit price protection → `break`;
* missing or empty level at the best price → `removePrice` and `continue`
  (the map key is *not* deleted on the missing/empty path);
* in-memory `avail <= 0` → shift the level head, deleting the level and
  its price entry when the list empties, and `continue`;
* durability unit: re-read the resting row (`FOR UPDATE`); a missing row
  or `dbAvail <= 0` rolls back and shifts the head only (no level/price
  cleanup on this path, exactly as in the source); otherwise the trade is
  inserted with quantity `finalTradeQty = min(min(incomingRemaining,
  avail), dbAvail)`, both rows are updated, the unit commits
  (`commitDb`), and memory is reconciled (`commitBook`); if the incoming
  row has vanished the unit rolls back and the call throws (`err`).
Fuel exhaustion acts like `break`. -/
def matchLoop (incoming : Order) :
    Nat → ℚ → Book → Db → List Trade → MatchResult
  | 0, _, book, db, acc => ⟨acc, book, db, false⟩
  | fuel + 1, incomingRemaining, book, db, acc =>
    if incomingRemaining ≤ 0 then ⟨acc, book, db, false⟩ else
    let isBuy := isBuySide incoming
    match (oppPrices book isBuy).head? with
    | none => ⟨acc, book, db, false⟩
    | some bestPrice =>
      if incoming.otype = "limit" ∧
          ((isBuy = true ∧ bestPrice > jsNum incoming.price) ∨
           (isBuy = false ∧ bestPrice < jsNum incoming.price)) then
        ⟨acc, book, db, false⟩
      else
        match alGet (oppMap book isBuy) bestPrice with
        | none =>
          matchLoop incoming fuel incomingRemaining
            (priceCut book isBuy bestPrice) db acc
        | some [] =>
          matchLoop incoming fuel incomingRemaining
            (priceCut book isBuy bestPrice) db acc
        | some (resting :: restTail) =>
          if resting.remaining_quantity ≤ 0 then
            matchLoop incoming fuel incomingRemaining
              (dropHeadClean book isBuy bestPrice restTail) db acc
          else
            match findRow db.orders resting.id with
            | none =>
              matchLoop incoming fuel incomingRemaining
                (setLevel book isBuy bestPrice restTail) db acc
            | some rRow =>
              if rRow.remaining_quantity ≤ 0 then
                matchLoop incoming fuel incomingRemaining
                  (setLevel book isBuy bestPrice restTail) db acc
              else
                let finalTradeQty :=
                  min (min incomingRemaining resting.remaining_quantity)
                    rRow.remaining_quantity
                let newRestingRemaining := rRow.remaining_quantity - finalTradeQty
                match findRow
                    (updateRow db.orders resting.id newRestingRemaining
                      (if newRestingRemaining = 0 then "filled" else "partially_filled"))
                    incoming.id with
                | none => ⟨acc, book, db, true⟩
                | some inRow =>
                  matchLoop incoming fuel (incomingRemaining - finalTradeQty)
                    (commitBook book isBuy bestPrice resting restTail newRestingRemaining)
                    (commitDb db incoming resting rRow inRow finalTradeQty)
                    (acc ++ [theTrade incoming db resting finalTradeQty])

/-- `processIncomingOrder(incoming)`: run the matching loop starting from
`Number(incoming.remaining_quantity)` with an empty trades array. -/
def processIncomingOrder (fuel : Nat) (incoming : Order) (book : Book)
    (db : Db) : MatchResult :=
  matchLoop incoming fuel incoming.remaining_quantity book db []

/-- `matchingEngine.matchOrderSync(order)` (also reached through
`matchingEngine.matchOrder`): a limit order with positive remaining is
first added to its own side book, then the matching loop runs. -/
def matchOrderSync (fuel : Nat) (order : Order) (book : Book) (db : Db) :
    MatchResult :=
  let book1 :=
    if order.otype = "limit" ∧ order.remaining_quantity > 0 then
      addOrderToBook book order
    else book
  processIncomingOrder fuel order book1 db

/-- `runInstrumentQueue`: drain the queued orders one at a time; each is
added to the book (limit, positive remaining) and matched.  An error from
`processIncomingOrder` propagates and stops the drain (the `.catch` in
`enqueueOrder` only logs it). -/
def runQueue (fuel : Nat) : List Order → Book → Db → Book × Db
  | [], book, db => (book, db)
  | order :: rest, book, db =>
    let r := matchOrderSync fuel order book db
    if r.err then (r.book, r.db) else runQueue fuel rest r.book r.db

/-- `SELECT * FROM orders WHERE idempotency_key = $1 LIMIT 1`. -/
def findByKey : List Order → String → Option Order
  | [], _ => none
  | r :: rest, k =>
    if r.idempotency_key = some k then some r else findByKey rest k

/-- `SELECT * FROM trades WHERE buy_order_id=$1 OR sell_order_id=$1`
(the `ORDER BY traded_at DESC` is not modelled; trades keep store order,
which no claim depends on). -/
def tradesFor (db : Db) (oid : Nat) : List Trade :=
  db.trades.filter fun t =>
    decide (t.buy_order_id = oid ∨ t.sell_order_id = oid)

/-- `ordersService.cancelOrder(orderId)` (ordersService.js lines 132-152):
select the row; return `null` for an unknown row or when
`status === 'filled' || remaining_quantity === 0`; otherwise set
`status='cancelled'` (the remaining quantity is NOT zeroed) and return the
pre-update row.  `OrderBook.removeOrder` only touches the Redis store —
the matching engine's in-memory `books` are never modified by a cancel.
(Strictly, the driver returns NUMERIC as a string, so the JS strict
comparison `remaining_quantity === 0` can never be true; it is modelled
as the numeric test, which is reachable only on rows the engine anyway
marks 'filled', so no claim distinguishes the two readings.) -/
def cancelOrder (db : Db) (orderId : Nat) : Option Order × Db :=
  match findRow db.orders orderId with
  | none => (none, db)
  | some order =>
    if order.status = "filled" ∨ order.remaining_quantity = 0 then (none, db)
    else
      (some order,
       { db with
         orders := db.orders.map fun r =>
           if r.id = orderId then { r with status := "cancelled" } else r })

/-- The global `books` registry, `instrument → book`. -/
abbrev Books := List (String × Book)

/-- `ensureBook(instrument)` read side: the instrument's book, or a fresh
empty book. -/
def getBook (bks : Books) (inst : String) : Book := (alGet bks inst).getD {}

/-- The validated submission payload (`data`).  JS falsiness of a missing
or empty string field is modelled by `""`; a missing price by `none`
(note `!data.price` is also true for a price of `0`). -/
structure SubmitData where
  client_id : String := ""
  instrument : String := ""
  side : String := ""
  otype : String := ""
  price : Option ℚ := none
  quantity : ℚ := 0
  idempotency_key : Option String := none
deriving Repr, DecidableEq

/-- `opts.idempotency_key || data.idempotency_key || null`: the empty
string is falsy, hence normalised to `null`. -/
def normKey (k : Option String) : Option String :=
  if k = some "" then none else k

/-- Result of `ordersService.createOrder`: either a thrown validation /
engine error, or `{ order, trades }`, together with the updated registry
and durable store. -/
structure CreateResult where
  result : Except String (Order × List Trade)
  books : Books
  db : Db
deriving Repr

/-- `ordersService.createOrder(data)` (ordersService.js lines 9-96):
* throw on missing (falsy) `client_id` / `instrument` / `side` / `type`,
  and on a limit order with falsy `price`.  There is no check that a
  market order carries no price, and no check on `quantity`.
* with a non-empty idempotency key, an existing row under that key is
  returned together with ALL trades referencing it; nothing is inserted.
* otherwise insert the row (`remaining_quantity = quantity`, status
  `'open'`, price nulled for market orders), then run
  `matchingEngine.matchOrder` (= `matchOrderSync`).  The freshly inserted
  row — not its post-match state — is returned with the run's trades.
  `created_at` is modelled by the fresh-id counter (monotone, as `NOW()`).
* if the engine throws, the catch block falls back to the idempotency
  lookup (which now finds the row just inserted) before rethrowing. -/
def createOrder (fuel : Nat) (data : SubmitData) (books : Books) (db : Db) :
    CreateResult :=
  if data.client_id = "" then ⟨.error "client_id required", books, db⟩
  else if data.instrument = "" then ⟨.error "instrument required", books, db⟩
  else if data.side = "" then ⟨.error "side must be buy or sell", books, db⟩
  else if data.otype = "" then ⟨.error "type must be limit or market", books, db⟩
  else if data.otype = "limit" ∧ (data.price = none ∨ data.price = some 0) then
    ⟨.error "price required for limit order", books, db⟩
  else
    let key := normKey data.idempotency_key
    let replay := match key with
      | some k => findByKey db.orders k
      | none => none
    match replay with
    | some row => ⟨.ok (row, tradesFor db row.id), books, db⟩
    | none =>
      let newOrder : Order :=
        { id := db.nextId
          client_id := data.client_id
          instrument := data.instrument
          side := data.side
          otype := data.otype
          price := if data.otype = "limit" then data.price else none
          quantity := data.quantity
          remaining_quantity := data.quantity
          status := "open"
          created_at := db.nextId
          idempotency_key := key }
      let db1 : Db :=
        { db with orders := db.orders ++ [newOrder], nextId := db.nextId + 1 }
      -- `OrderBook.addOrder(newOrder)` writes the Redis store only.
      let r := matchOrderSync fuel newOrder (getBook books data.instrument) db1
      let books1 := alSet books data.instrument r.book
      if r.err then
        match key with
        | some k =>
          match findByKey r.db.orders k with
          | some row => ⟨.ok (row, tradesFor r.db row.id), books1, r.db⟩
          | none => ⟨.error "Incoming order missing", books1, r.db⟩
        | none => ⟨.error "Incoming order missing", books1, r.db⟩
      else ⟨.ok (newOrder, r.trades), books1, r.db⟩

/-- Rows the startup query selects: `type='limit' AND status IN
('open','partially_filled') AND price IS NOT NULL`. -/
def eligibleRow (r : Order) : Prop :=
  r.otype = "limit" ∧ (r.status = "open" ∨ r.status = "partially_filled") ∧
    r.price ≠ none

instance (r : Order) : Decidable (eligibleRow r) := by
  unfold eligibleRow; infer_instance

/-- `ORDER BY created_at ASC`. -/
def leCA (a b : Order) : Prop := a.created_at ≤ b.created_at

instance : DecidableRel leCA := fun a b => Nat.decLe a.created_at b.created_at

instance : IsTotal Order leCA := ⟨fun a b => Nat.le_total a.created_at b.created_at⟩

instance : IsTrans Order leCA := ⟨fun _ _ _ h1 h2 => Nat.le_trans h1 h2⟩

/-- The in-memory entry the recovery loop builds from a row
(matchingEngine.js lines 91-103): the listed fields are copied,
`price`/`quantity`/`remaining_quantity` through `Number(..)`; the JS
object carries no `idempotency_key` field. -/
def orderEntry (row : Order) : Order :=
  { id := row.id
    client_id := row.client_id
    instrument := row.instrument
    side := row.side
    otype := row.otype
    price := some (jsNum row.price)
    quantity := row.quantity
    remaining_quantity := row.remaining_quantity
    created_at := row.created_at
    status := row.status }

/-- One iteration of the recovery loop (matchingEngine.js lines 91-105):
build the in-memory entry and `addOrderToBook` it into its instrument's
book (`ensureBook` modelled by `getBook`'s empty default). -/
def loadStep (bks : Books) (row : Order) : Books :=
  alSet bks row.instrument
    (addOrderToBook (getBook bks row.instrument) (orderEntry row))

/-- `loadOpenOrdersFromDb()` (matchingEngine.js lines 82-106): select the
eligible rows ordered by `created_at` ascending, and insert each into its
instrument's book through `addOrderToBook` — the very insertion path used
for new resting orders.  No matching is invoked: the function returns a
registry of books and leaves the durable store untouched.  (SQL leaves
the order of `created_at` ties unspecified; the model uses a stable
sort.) -/
def loadOpenOrdersFromDb (db : Db) : Books :=
  (List.insertionSort leCA
    (db.orders.filter fun r => decide (eligibleRow r))).foldl loadStep []

/-- A book side selected by the order's own side (bids for "buy"). -/
def sideOf (b : Book) (buySide : Bool) : List (ℚ × List Order) :=
  if buySide then b.bids else b.asks

/-- The FIFO list at one price level of one instrument's book (empty when
the level does not exist). -/
def levelList (bks : Books) (inst : String) (buySide : Bool) (k : ℚ) :
    List Order :=
  (alGet (sideOf (getBook bks inst) buySide) k).getD []

/-- Does this row belong at the given instrument/side/price level? -/
def rowAt (inst : String) (side : Bool) (k : ℚ) (r : Order) : Bool :=
  decide (r.instrument = inst ∧ isBuySide r = side ∧ jsNum r.price = k)

/-!
### Decimal discipline model

The main model above keys price levels by the numeric price value, which
matches the JS behaviour exactly when every price string is in canonical
form.  The engine, however, keys the level `Map` by `String(order.price)`
(the raw decimal string when the field holds a string, as NUMERIC columns
are returned by the driver) while the sorted price array and every
comparison go through the binary-float `Number(..)` coercion.  The
definitions below keep the string keys to examine that discipline. -/

/-- Digit-list value (`['1','0','0']` ↦ 100). -/
def digitsVal (cs : List Char) : Nat :=
  cs.foldl (fun n c => 10 * n + (c.toNat - 48)) 0

/-- Split a decimal string's characters at the first `'.'`: integer part
and optional fraction part. -/
def splitOnDot : List Char → List Char × Option (List Char)
  | [] => ([], none)
  | c :: rest =>
    if c = '.' then ([], some rest)
    else
      let (i, f) := splitOnDot rest
      (c :: i, f)

/-- `Number(s)` on a plain decimal string `"d+[.d+]"` (exact: every such
value the claims examine is exactly representable as a float, so the
rational model loses nothing). -/
def parseDec (s : String) : ℚ :=
  match splitOnDot s.data with
  | (i, none) => (digitsVal i : ℚ)
  | (i, some f) => (digitsVal i : ℚ) + (digitsVal f : ℚ) / ((10 : ℚ) ^ f.length)

/-- Decimal digits of `n` (most significant first); the first argument is
recursion fuel, `n` itself always suffices. -/
def natDigitsAux : Nat → Nat → List Char
  | 0, _ => []
  | fuel + 1, n =>
    if n = 0 then []
    else natDigitsAux fuel (n / 10) ++ [Char.ofNat (48 + n % 10)]

/-- Decimal digit string of a natural number. -/
def natDigits (n : Nat) : List Char :=
  if n = 0 then ['0'] else natDigitsAux n n

/-- Insert a decimal point `k > 0` digits from the right of a digit
string. -/
def insertPoint (s : List Char) (k : Nat) : List Char :=
  if s.length ≤ k then
    '0' :: '.' :: (List.replicate (k - s.length) '0' ++ s)
  else s.take (s.length - k) ++ '.' :: s.drop (s.length - k)

/-- `String(n)` on a JS number: integers print without a point; finite
decimals print their (shortest round-trip) digits.  Values that are not
finite decimals cannot arise from decimal string inputs; they get an
arbitrary non-decimal fallback print. -/
def renderDec (q : ℚ) : String :=
  if q.den = 1 then
    String.mk ((if q.num < 0 then ['-'] else []) ++ natDigits q.num.natAbs)
  else
    match (List.range 18).find? (fun k => (q * (10 : ℚ) ^ k).den = 1) with
    | some k =>
      String.mk ((if q < 0 then ['-'] else []) ++
        insertPoint (natDigits (q * (10 : ℚ) ^ k).num.natAbs) k)
    | none => String.mk (natDigits q.num.natAbs ++ '/' :: natDigits q.den)

/-- One ask-side book with the engine's true keying: level map keyed by
`String(order.price)` (`addOrderToBook` line 53), price array fed with
`Number(order.price)` (line 59). -/
structure StrBook where
  asks : List (String × List Order) := []
  askPrices : List ℚ := []
deriving Repr, DecidableEq

/-- `addOrderToBook` for a sell limit order whose `price` field holds the
decimal string `priceStr`. -/
def addOrderToBookStr (b : StrBook) (priceStr : String) (order : Order) :
    StrBook :=
  { asks := alSet b.asks priceStr ((alGet b.asks priceStr).getD [] ++ [order])
    askPrices := insertPriceSorted b.askPrices (parseDec priceStr) false }

/-- The matcher's level lookup (`processIncomingOrder` lines 123-131):
`bestPrice = oppPrices[0]`, `priceKey = String(bestPrice)`,
`book.asks.get(priceKey)`. -/
def bestAskLevelStr (b : StrBook) : Option (List Order) :=
  match b.askPrices.head? with
  | none => none
  | some bestPrice => alGet b.asks (renderDec bestPrice)

/-!
### Spec-side predicates

The quantified invariants of spec §8, stated over the model's states. -/

/-- Sum of the quantities of the committed trades in which `oid` is a leg. -/
def tradeSum (trades : List Trade) (oid : Nat) : ℚ :=
  ((trades.filter fun t =>
    decide (t.buy_order_id = oid ∨ t.sell_order_id = oid)).map Trade.quantity).sum

/-- Spec §8 invariant 2: every order's original quantity equals its durable
remaining plus the quantities of all committed trades involving it. -/
def Conservation (db : Db) : Prop :=
  ∀ r ∈ db.orders, r.quantity = r.remaining_quantity + tradeSum db.trades r.id

/-- Every entry of a side's level map sits under the key equal to its own
price (true by construction of `addOrderToBook`). -/
def WFSideMap (m : List (ℚ × List Order)) : Prop :=
  ∀ kl ∈ m, ∀ e ∈ kl.2, e.price = some kl.1

/-- Every entry of a side's level map agrees with its durable row on the
price (prices are immutable after acceptance). -/
def PricesMatchDb (m : List (ℚ × List Order)) (db : Db) : Prop :=
  ∀ kl ∈ m, ∀ e ∈ kl.2, ∀ row, findRow db.orders e.id = some row →
    row.price = e.price

/-- `oid` does not occur among the entries of a side's level map. -/
def NotInMap (m : List (ℚ × List Order)) (oid : Nat) : Prop :=
  ∀ kl ∈ m, ∀ e ∈ kl.2, e.id ≠ oid

/-- Number of entries carrying the given id in a side's level map. -/
def idCountMap (m : List (ℚ × List Order)) (oid : Nat) : Nat :=
  (m.map fun kl => (kl.2.filter fun e => decide (e.id = oid)).length).sum

/-- Number of entries carrying the given id anywhere in the book. -/
def idCountBook (b : Book) (oid : Nat) : Nat :=
  idCountMap b.bids oid + idCountMap b.asks oid

/-- The resting leg of a trade emitted for the given incoming order: the
leg that is not the incoming order's side. -/
def restingLegId (incoming : Order) (T : Trade) : Nat :=
  if isBuySide incoming then T.sell_order_id else T.buy_order_id

/-- The trade has the given order id as one of its legs. -/
def hitsLeg (T : Trade) (oid : Nat) : Prop :=
  T.buy_order_id = oid ∨ T.sell_order_id = oid

/-- Both side maps of a book carry duplicate-free keys.  This is true of
every book the engine builds: `Map.set` replaces an existing key and
appends only a fresh one, and `Map.delete` removes a key. -/
def WFKeys (b : Book) : Prop :=
  (b.bids.map Prod.fst).Nodup ∧ (b.asks.map Prod.fst).Nodup

/-- Price-time-priority invariant for two resting orders `A` (ahead) and
`B` (behind) on side `sel` (`true` = bids) at price key `p`; `base` is
the length of the durable trade log when observation starts.  Either

* (phase one) the level at `p` still holds `A`'s entry — with some
  current remaining `remA > 0` and its durable row in sync — strictly
  ahead of an entry with `B`'s id; nothing ahead of `A` carries `A`'s or
  `B`'s id, nothing between them carries `A`'s id, no other key of that
  side and no entry of the opposite side carries either id, and no trade
  recorded since `base` has `B` as a leg; or

* (phase two) `A`'s durable row has remaining 0, `A`'s id is nowhere in
  the book, and the trades recorded since `base` split at some index `n`:
  `A`-legged trades only before `n`, no `B`-legged trade before `n`. -/
def FifoInv (A B : Order) (sel : Bool) (p : ℚ) (base : Nat)
    (book : Book) (db : Db) : Prop :=
  base ≤ db.trades.length ∧ WFKeys book ∧
  ((∃ l1 l2 remA,
      alGet (sideOf book sel) p =
        some (l1 ++ { A with remaining_quantity := remA } :: l2) ∧
      0 < remA ∧
      B.id ∈ l2.map Order.id ∧
      (∀ e ∈ l1, e.id ≠ A.id ∧ e.id ≠ B.id) ∧
      (∀ e ∈ l2, e.id ≠ A.id) ∧
      (∃ rowA, findRow db.orders A.id = some rowA ∧
        rowA.remaining_quantity = remA) ∧
      (∀ kl ∈ sideOf book sel, kl.1 ≠ p →
        ∀ e ∈ kl.2, e.id ≠ A.id ∧ e.id ≠ B.id) ∧
      NotInMap (sideOf book (!sel)) A.id ∧
      NotInMap (sideOf book (!sel)) B.id ∧
      (∀ T ∈ db.trades.drop base, ¬ hitsLeg T B.id)) ∨
   ((∃ rowA, findRow db.orders A.id = some rowA ∧
      rowA.remaining_quantity = 0) ∧
    NotInMap book.bids A.id ∧ NotInMap book.asks A.id ∧
    (∃ n, n ≤ db.trades.length - base ∧
      (∀ T ∈ (db.trades.drop base).drop n, ¬ hitsLeg T A.id) ∧
      (∀ T ∈ (db.trades.drop base).take n, ¬ hitsLeg T B.id))))

/-!
### Concrete scenarios

Closed states used by the per-claim counterexample / failing-input
theorems. -/

/-- A resting ask, 10@100 (spec scenario S6's order X). -/
def c1Rest : Order := 
  { id := 1, client_id := "m1", instrument := "AAPL",
    side := "sell", otype := "limit", price := some 100, quantity := 10,
    remaining_quantity := 10, status := "open", created_at := 1 }

/-- The incoming buy, 10@100. -/
def c1Buy : Order := 
  { id := 2, client_id := "m2", instrument := "AAPL",
    side := "buy", otype := "limit", price := some 100, quantity := 10,
    remaining_quantity := 10, status := "open", created_at := 2 }

/-- Durable store holding both orders, quiescent. -/
def c1Db : Db := 
  { orders := [c1Rest, c1Buy], trades := [], nextId := 50 }

/-- The store after the cancel of order 1 durably commits. -/
def c1Cancelled : Db := (cancelOrder c1Db 1).2

/-- The matcher run that starts after the cancel committed. -/
def c1Run : MatchResult :=
  matchOrderSync 4 c1Buy (addOrderToBook {} c1Rest) c1Cancelled

/-- Resting ask and incoming buy for the S1 simple-cross scenario. -/
def c2Rest : Order := 
  { c1Rest with client_id := "n1" }

/-- The incoming buy of the simple cross. -/
def c2Buy : Order := 
  { c1Buy with client_id := "n2" }

/-- Quiescent durable store for the simple cross. -/
def c2Db : Db := 
  { orders := [c2Rest, c2Buy], trades := [], nextId := 60 }

/-- The S1 matcher run. -/
def c2Run : MatchResult := matchOrderSync 4 c2Buy (addOrderToBook {} c2Rest) c2Db

/-- A resting ask whose in-memory remaining (2) exceeds its durable
remaining (1) — the "skew" situation of spec §4.5(iii). -/
def c3Rest : Order := 
  { id := 1, client_id := "p1", instrument := "A",
    side := "sell", otype := "limit", price := some 100, quantity := 2,
    remaining_quantity := 2, status := "open", created_at := 1 }

/-- Order 1's durable row: only 1 left. -/
def c3Row : Order := 
  { c3Rest with
    remaining_quantity := 1, status := "partially_filled" }

/-- The incoming buy for 2. -/
def c3Buy : Order := 
  { id := 2, client_id := "p2", instrument := "A",
    side := "buy", otype := "limit", price := some 100, quantity := 2,
    remaining_quantity := 2, status := "open", created_at := 2 }

/-- The skewed matcher run. -/
def c3Run : MatchResult :=
  matchOrderSync 4 c3Buy (addOrderToBook {} c3Rest)
    { orders := [c3Row, c3Buy], nextId := 7 }

/-- A resting ask 4@100 for the price-protection run. -/
def c4Rest : Order :=
  { id := 1, client_id := "r1", instrument := "AAPL",
    side := "sell", otype := "limit", price := some 100, quantity := 4,
    remaining_quantity := 4, status := "open", created_at := 1 }

/-- The incoming limit buy 3@101. -/
def c4Buy : Order :=
  { id := 2, client_id := "r2", instrument := "AAPL",
    side := "buy", otype := "limit", price := some 101, quantity := 3,
    remaining_quantity := 3, status := "open", created_at := 2 }

/-- The durable store for that run. -/
def c4Db : Db :=
  { orders := [c4Rest, c4Buy], trades := [], nextId := 9 }

/-- The book holding the resting ask. -/
def c4Book : Book := addOrderToBook {} c4Rest

/-- The trade that run commits: 3 at the resting price 100. -/
def c4Trade : Trade := ⟨9, 2, 1, "AAPL", 100, 3⟩

/-- A market submission that carries a price and a negative quantity. -/
def c6Data : SubmitData := 
  { client_id := "c", instrument := "A",
    side := "buy", otype := "market", price := some 50, quantity := -5 }

/-- Its `createOrder` run against empty stores. -/
def c6Run : CreateResult := createOrder 4 c6Data [] {}

/-- The row that run durably inserts. -/
def c6Inserted : Order := 
  { id := 0, client_id := "c", instrument := "A",
    side := "buy", otype := "market", price := none, quantity := -5,
    remaining_quantity := -5, status := "open", created_at := 0 }

/-- An already-cancelled order that still has remaining quantity 5. -/
def c7Row : Order := 
  { id := 1, client_id := "q", instrument := "AAPL",
    side := "sell", otype := "limit", price := some 100, quantity := 10,
    remaining_quantity := 5, status := "cancelled", created_at := 1 }

/-- Store holding only that cancelled order. -/
def c7Db : Db := 
  { orders := [c7Row] }

/-- A filled order (remaining 0), for exercising the refused-cancel path. -/
def c7FilledRow : Order :=
  { id := 2, client_id := "q2", instrument := "AAPL",
    side := "buy", otype := "limit", price := some 101, quantity := 10,
    remaining_quantity := 0, status := "filled", created_at := 2 }

/-- Store holding only the filled order. -/
def c7FilledDb : Db := { orders := [c7FilledRow] }

/-- First submission: sell 5@100 with idempotency key "K" (no match). -/
def c8SubA : SubmitData := 
  { client_id := "c1", instrument := "A",
    side := "sell", otype := "limit", price := some 100, quantity := 5,
    idempotency_key := some "K" }

/-- Second, keyless submission: buy 5@100 (fills the first). -/
def c8SubB : SubmitData := 
  { client_id := "c2", instrument := "A",
    side := "buy", otype := "limit", price := some 100, quantity := 5 }

/-- First submission's run. -/
def c8Run1 : CreateResult := createOrder 4 c8SubA [] {}

/-- The matching counter-order's run. -/
def c8Run2 : CreateResult := createOrder 4 c8SubB c8Run1.books c8Run1.db

/-- The replay of the first submission (same key "K"). -/
def c8Run3 : CreateResult := createOrder 4 c8SubA c8Run2.books c8Run2.db

/-- The order row the first submission accepted. -/
def c8Order0 : Order := 
  { id := 0, client_id := "c1", instrument := "A",
    side := "sell", otype := "limit", price := some 100, quantity := 5,
    remaining_quantity := 5, status := "open", created_at := 0,
    idempotency_key := some "K" }

/-- The trade the counter-order produced against it. -/
def c8Trade : Trade := 
  { id := 2, buy_order_id := 1, sell_order_id := 0,
    instrument := "A", price := 100, quantity := 5 }

/-- An ask entry whose price arrived as the string "100.00". -/
def c10A : Order := 
  { id := 1, client_id := "d1", instrument := "A",
    side := "sell", otype := "limit", quantity := 5, remaining_quantity := 5,
    status := "open", created_at := 1 }

/-- An ask entry whose price arrived as the string "100". -/
def c10B : Order := 
  { id := 2, client_id := "d2", instrument := "A",
    side := "sell", otype := "limit", quantity := 5, remaining_quantity := 5,
    status := "open", created_at := 2 }

/-- The ask book after both are added (string keys kept, as the engine
does). -/
def c10Book : StrBook := addOrderToBookStr (addOrderToBookStr {} "100.00" c10A) "100" c10B

/-- Resting ask A, 5@100, inserted first (spec scenario S4's first
order). -/
def c5A : Order :=
  { id := 1, client_id := "p1", instrument := "AAPL",
    side := "sell", otype := "limit", price := some 100, quantity := 5,
    remaining_quantity := 5, status := "open", created_at := 1 }

/-- Resting ask B, 5@100, inserted second. -/
def c5B : Order :=
  { id := 2, client_id := "p2", instrument := "AAPL",
    side := "sell", otype := "limit", price := some 100, quantity := 5,
    remaining_quantity := 5, status := "open", created_at := 2 }

/-- The incoming buy, 6@100: fills A (5) and then one unit of B. -/
def c5Buy : Order :=
  { id := 3, client_id := "p3", instrument := "AAPL",
    side := "buy", otype := "limit", price := some 100, quantity := 6,
    remaining_quantity := 6, status := "open", created_at := 3 }

/-- The ask book holding A then B at level 100. -/
def c5Book : Book := addOrderToBook (addOrderToBook {} c5A) c5B

/-- Durable rows in sync with the book. -/
def c5Db : Db := { orders := [c5A, c5B, c5Buy], trades := [], nextId := 50 }

/-- The second committed trade: one unit against B (sell leg id 2). -/
def c5TradeB : Trade := ⟨51, 3, 2, "AAPL", 100, 1⟩

/-!
### Theorems

First, basic lemmas about the store and association-list primitives. -/

theorem findRow_updateRow (l : List Order) (oid : Nat) (rem : ℚ) (st : String)
    (oid' : Nat) :
    findRow (updateRow l oid rem st) oid' =
      (findRow l oid').map fun r =>
        if r.id = oid then { r with remaining_quantity := rem, status := st }
        else r := by
  have hfid : ∀ x : Order,
      (if x.id = oid then
        ({ x with remaining_quantity := rem, status := st } : Order)
      else x).id = x.id := by
    intro x; split <;> rfl
  induction l with
  | nil => rfl
  | cons r rest ih =>
    simp only [updateRow, List.map_cons, findRow, hfid] at ih ⊢
    by_cases h' : r.id = oid'
    · simp [h']
    · simpa [h'] using ih

theorem findRow_mem {l : List Order} {oid : Nat} {r : Order}
    (h : findRow l oid = some r) : r ∈ l ∧ r.id = oid := by
  induction l with
  | nil => simp [findRow] at h
  | cons x rest ih =>
    by_cases hx : x.id = oid
    · simp [findRow, hx] at h
      subst h
      exact ⟨List.mem_cons_self x rest, hx⟩
    · simp [findRow, hx] at h
      rcases ih h with ⟨hm, hid⟩
      exact ⟨List.mem_cons_of_mem x hm, hid⟩

theorem alGet_alSet {κ α : Type} [DecidableEq κ] (m : List (κ × α))
    (k k' : κ) (v : α) :
    alGet (alSet m k v) k' = if k = k' then some v else alGet m k' := by
  induction m with
  | nil => simp [alSet, alGet]
  | cons p rest ih =>
    obtain ⟨pk, pv⟩ := p
    by_cases h : pk = k
    · subst h
      by_cases h' : pk = k'
      · subst h'
        simp [alSet, alGet]
      · simp [alSet, alGet, h']
    · by_cases h' : pk = k'
      · subst h'
        have hkk : k ≠ pk := fun hh => h hh.symm
        simp [alSet, alGet, h, hkk]
      · simp [alSet, alGet, h, h', ih]

theorem alGet_alDel_ne {κ α : Type} [DecidableEq κ] (m : List (κ × α))
    {k k' : κ} (h : k ≠ k') :
    alGet (alDel m k) k' = alGet m k' := by
  induction m with
  | nil => rfl
  | cons p rest ih =>
    obtain ⟨pk, pv⟩ := p
    by_cases hk : pk = k
    · subst hk
      simp [alDel, alGet, h]
    · simp [alDel, alGet, hk, ih]

theorem mem_alSet {κ α : Type} [DecidableEq κ] {m : List (κ × α)}
    {k : κ} {v : α} {kl : κ × α} (h : kl ∈ alSet m k v) :
    kl = (k, v) ∨ kl ∈ m := by
  induction m with
  | nil => simpa [alSet] using h
  | cons p rest ih =>
    obtain ⟨pk, pv⟩ := p
    by_cases hk : pk = k
    · simp [alSet, hk] at h
      rcases h with h | h
      · exact Or.inl h
      · exact Or.inr (List.mem_cons_of_mem _ h)
    · simp [alSet, hk] at h
      rcases h with h | h
      · exact Or.inr (by simp [h])
      · rcases ih h with h' | h'
        · exact Or.inl h'
        · exact Or.inr (List.mem_cons_of_mem _ h')

theorem mem_alDel {κ α : Type} [DecidableEq κ] {m : List (κ × α)} {k : κ}
    {kl : κ × α} (h : kl ∈ alDel m k) : kl ∈ m := by
  induction m with
  | nil => simp [alDel] at h
  | cons p rest ih =>
    obtain ⟨pk, pv⟩ := p
    by_cases hk : pk = k
    · simp [alDel, hk] at h
      exact List.mem_cons_of_mem _ h
    · simp [alDel, hk] at h
      rcases h with h | h
      · simp [h]
      · exact List.mem_cons_of_mem _ (ih h)

theorem alGet_mem {κ α : Type} [DecidableEq κ] {m : List (κ × α)} {k : κ}
    {v : α} (h : alGet m k = some v) : (k, v) ∈ m := by
  induction m with
  | nil => simp [alGet] at h
  | cons p rest ih =>
    obtain ⟨pk, pv⟩ := p
    by_cases hk : pk = k
    · subst hk
      simp [alGet] at h
      simp [h]
    · simp [alGet, hk] at h
      exact List.mem_cons_of_mem _ (ih h)

/-- Induction principle for the matching loop: any predicate over
(remaining, book, store, emitted trades) preserved by the four kinds of
loop iteration — price-entry cleanup, drained-head shift, rollback shift,
and a committed durability unit — holds of the state `matchLoop` stops
in; the result's fields are that final state's, and an error exit
additionally exhibits the vanished-incoming-row condition that caused
it. -/
theorem matchLoop_ind (incoming : Order) (P : ℚ → Book → Db → List Trade → Prop)
    (hcut : ∀ rem book db acc bestPrice,
      ¬ rem ≤ 0 →
      (oppPrices book (isBuySide incoming)).head? = some bestPrice →
      (alGet (oppMap book (isBuySide incoming)) bestPrice = none ∨
        alGet (oppMap book (isBuySide incoming)) bestPrice = some []) →
      P rem book db acc →
      P rem (priceCut book (isBuySide incoming) bestPrice) db acc)
    (hdrop : ∀ rem book db acc bestPrice resting restTail,
      ¬ rem ≤ 0 →
      (oppPrices book (isBuySide incoming)).head? = some bestPrice →
      alGet (oppMap book (isBuySide incoming)) bestPrice = some (resting :: restTail) →
      resting.remaining_quantity ≤ 0 →
      P rem book db acc →
      P rem (dropHeadClean book (isBuySide incoming) bestPrice restTail) db acc)
    (hshift : ∀ rem book db acc bestPrice resting restTail,
      ¬ rem ≤ 0 →
      (oppPrices book (isBuySide incoming)).head? = some bestPrice →
      alGet (oppMap book (isBuySide incoming)) bestPrice = some (resting :: restTail) →
      ¬ resting.remaining_quantity ≤ 0 →
      (findRow db.orders resting.id = none ∨
        ∃ rRow, findRow db.orders resting.id = some rRow ∧
          rRow.remaining_quantity ≤ 0) →
      P rem book db acc →
      P rem (setLevel book (isBuySide incoming) bestPrice restTail) db acc)
    (hcommit : ∀ rem book db acc bestPrice resting restTail rRow inRow,
      ¬ rem ≤ 0 →
      (oppPrices book (isBuySide incoming)).head? = some bestPrice →
      ¬ (incoming.otype = "limit" ∧
          ((isBuySide incoming = true ∧ bestPrice > jsNum incoming.price) ∨
           (isBuySide incoming = false ∧ bestPrice < jsNum incoming.price))) →
      alGet (oppMap book (isBuySide incoming)) bestPrice = some (resting :: restTail) →
      ¬ resting.remaining_quantity ≤ 0 →
      findRow db.orders resting.id = some rRow →
      ¬ rRow.remaining_quantity ≤ 0 →
      findRow
        (updateRow db.orders resting.id
          (rRow.remaining_quantity -
            min (min rem resting.remaining_quantity) rRow.remaining_quantity)
          (if rRow.remaining_quantity -
              min (min rem resting.remaining_quantity) rRow.remaining_quantity = 0
            then "filled" else "partially_filled"))
        incoming.id = some inRow →
      P rem book db acc →
      P (rem - min (min rem resting.remaining_quantity) rRow.remaining_quantity)
        (commitBook book (isBuySide incoming) bestPrice resting restTail
          (rRow.remaining_quantity -
            min (min rem resting.remaining_quantity) rRow.remaining_quantity))
        (commitDb db incoming resting rRow inRow
          (min (min rem resting.remaining_quantity) rRow.remaining_quantity))
        (acc ++ [theTrade incoming db resting
          (min (min rem resting.remaining_quantity) rRow.remaining_quantity)])) :
    ∀ fuel rem book db acc, P rem book db acc →
      ∃ rem' book' db' acc' e,
        matchLoop incoming fuel rem book db acc = MatchResult.mk acc' book' db' e ∧
        P rem' book' db' acc' ∧
        (e = true →
          ∃ oid remq st,
            findRow (updateRow db'.orders oid remq st) incoming.id = none) := by
  intro fuel
  induction fuel with
  | zero =>
    intro rem book db acc hP
    exact ⟨rem, book, db, acc, false, rfl, hP, by simp⟩
  | succ n ih =>
    intro rem book db acc hP
    rw [matchLoop]
    dsimp only
    by_cases h0 : rem ≤ 0
    · rw [if_pos h0]
      exact ⟨rem, book, db, acc, false, rfl, hP, by simp⟩
    · rw [if_neg h0]
      cases hh : (oppPrices book (isBuySide incoming)).head? with
      | none => exact ⟨rem, book, db, acc, false, rfl, hP, by simp⟩
      | some bestPrice =>
        dsimp only
        by_cases hpc : incoming.otype = "limit" ∧
            ((isBuySide incoming = true ∧ bestPrice > jsNum incoming.price) ∨
             (isBuySide incoming = false ∧ bestPrice < jsNum incoming.price))
        · rw [if_pos hpc]
          exact ⟨rem, book, db, acc, false, rfl, hP, by simp⟩
        · rw [if_neg hpc]
          cases halev : alGet (oppMap book (isBuySide incoming)) bestPrice with
          | none =>
            dsimp only
            exact ih rem (priceCut book (isBuySide incoming) bestPrice) db acc
              (hcut rem book db acc bestPrice h0 hh (Or.inl halev) hP)
          | some l =>
            cases l with
            | nil =>
              dsimp only
              exact ih rem (priceCut book (isBuySide incoming) bestPrice) db acc
                (hcut rem book db acc bestPrice h0 hh (Or.inr halev) hP)
            | cons resting restTail =>
              dsimp only
              by_cases hav : resting.remaining_quantity ≤ 0
              · rw [if_pos hav]
                exact ih rem (dropHeadClean book (isBuySide incoming) bestPrice restTail)
                  db acc
                  (hdrop rem book db acc bestPrice resting restTail h0 hh halev hav hP)
              · rw [if_neg hav]
                cases hfr : findRow db.orders resting.id with
                | none =>
                  dsimp only
                  exact ih rem (setLevel book (isBuySide incoming) bestPrice restTail)
                    db acc
                    (hshift rem book db acc bestPrice resting restTail h0 hh halev hav
                      (Or.inl hfr) hP)
                | some rRow =>
                  dsimp only
                  by_cases hdb : rRow.remaining_quantity ≤ 0
                  · rw [if_pos hdb]
                    exact ih rem (setLevel book (isBuySide incoming) bestPrice restTail)
                      db acc
                      (hshift rem book db acc bestPrice resting restTail h0 hh halev hav
                        (Or.inr ⟨rRow, hfr, hdb⟩) hP)
                  · rw [if_neg hdb]
                    cases hfi : findRow
                        (updateRow db.orders resting.id
                          (rRow.remaining_quantity -
                            min (min rem resting.remaining_quantity)
                              rRow.remaining_quantity)
                          (if rRow.remaining_quantity -
                              min (min rem resting.remaining_quantity)
                                rRow.remaining_quantity = 0
                            then "filled" else "partially_filled"))
                        incoming.id with
                    | none =>
                      dsimp only
                      refine ⟨rem, book, db, acc, true, rfl, hP, fun _ => ?_⟩
                      exact ⟨resting.id, _, _, hfi⟩
                    | some inRow =>
                      dsimp only
                      exact ih _ _ _ _
                        (hcommit rem book db acc bestPrice resting restTail rRow inRow
                          h0 hh hpc halev hav hfr hdb hfi hP)

theorem isSome_findRow_updateRow (l : List Order) (oid : Nat) (rem : ℚ)
    (st : String) (oid' : Nat) :
    (findRow (updateRow l oid rem st) oid').isSome = (findRow l oid').isSome := by
  rw [findRow_updateRow]
  cases findRow l oid' <;> rfl

theorem findRow_append_isSome (l1 l2 : List Order) (oid : Nat)
    (h : (findRow l2 oid).isSome) : (findRow (l1 ++ l2) oid).isSome := by
  induction l1 with
  | nil => simpa using h
  | cons x rest ih =>
    by_cases hx : x.id = oid <;> simp [findRow, hx, ih]

/-- The matching loop never throws while the incoming order's durable row
exists, and that row still exists afterwards (`UPDATE` never removes
rows). -/
theorem matchLoop_keeps_incoming_row (incoming : Order) (fuel : Nat)
    (rem : ℚ) (book : Book) (db : Db) (acc : List Trade)
    (h : (findRow db.orders incoming.id).isSome) :
    (matchLoop incoming fuel rem book db acc).err = false ∧
    (findRow (matchLoop incoming fuel rem book db acc).db.orders
      incoming.id).isSome := by
  obtain ⟨rem', book', db', acc', e, heq, hP, herr⟩ :=
    matchLoop_ind incoming
      (fun _ _ db _ => (findRow db.orders incoming.id).isSome = true)
      (fun _ _ _ _ _ _ _ _ hP => hP)
      (fun _ _ _ _ _ _ _ _ _ _ _ hP => hP)
      (fun _ _ _ _ _ _ _ _ _ _ _ _ hP => hP)
      (fun _ _ db _ _ resting _ rRow inRow _ _ _ _ _ _ _ _ hP => by
        simpa [commitDb, isSome_findRow_updateRow] using hP)
      fuel rem book db acc h
  cases e with
  | false =>
    rw [heq]
    exact ⟨rfl, hP⟩
  | true =>
    exfalso
    obtain ⟨oid, remq, st, hnone⟩ := herr rfl
    have := isSome_findRow_updateRow db'.orders oid remq st incoming.id
    rw [hnone] at this
    rw [hP] at this
    simp at this

/-- Claim C6 (amended): `createOrder` accepts every submission whose
required fields are present (JS-truthy) and whose price is present when
the type is `"limit"` — including market submissions that carry a price
(stored as null) and submissions with non-positive quantity.  The
accepted row (status `'open'`, remaining = quantity) is returned and a
row under the fresh id is durably inserted.  Only the five checks
modelled in `createOrder` can produce a validation error. -/
theorem C6_submission_accepted (fuel : Nat) (data : SubmitData)
    (books : Books) (db : Db)
    (h1 : data.client_id ≠ "") (h2 : data.instrument ≠ "")
    (h3 : data.side ≠ "") (h4 : data.otype ≠ "")
    (h5 : ¬ (data.otype = "limit" ∧ (data.price = none ∨ data.price = some 0)))
    (h6 : normKey data.idempotency_key = none) :
    ∃ ts, (createOrder fuel data books db).result = Except.ok
      ({ id := db.nextId
         client_id := data.client_id
         instrument := data.instrument
         side := data.side
         otype := data.otype
         price := if data.otype = "limit" then data.price else none
         quantity := data.quantity
         remaining_quantity := data.quantity
         status := "open"
         created_at := db.nextId
         idempotency_key := none }, ts) ∧
      (findRow (createOrder fuel data books db).db.orders db.nextId).isSome := by
  unfold createOrder
  rw [if_neg h1, if_neg h2, if_neg h3, if_neg h4, if_neg h5]
  dsimp only
  rw [h6]
  dsimp only
  set newOrder : Order :=
    { id := db.nextId
      client_id := data.client_id
      instrument := data.instrument
      side := data.side
      otype := data.otype
      price := if data.otype = "limit" then data.price else none
      quantity := data.quantity
      remaining_quantity := data.quantity
      status := "open"
      created_at := db.nextId
      idempotency_key := none } with hnew
  have hin : (findRow (db.orders ++ [newOrder]).reverse.reverse
      newOrder.id).isSome := by
    simp only [List.reverse_reverse]
    exact findRow_append_isSome db.orders [newOrder] newOrder.id
      (by simp [findRow])
  simp only [List.reverse_reverse] at hin
  have hrun := matchLoop_keeps_incoming_row newOrder fuel
    newOrder.remaining_quantity
    (if newOrder.otype = "limit" ∧ newOrder.remaining_quantity > 0 then
      addOrderToBook (getBook books data.instrument) newOrder
    else getBook books data.instrument)
    { db with orders := db.orders ++ [newOrder], nextId := db.nextId + 1 }
    [] hin
  rcases hrun with ⟨herr, hrow⟩
  simp only [matchOrderSync, processIncomingOrder] at *
  rw [herr]
  dsimp only
  exact ⟨_, rfl, hrow⟩

/-- Witness for `C6_submission_accepted`: the market submission with a
price and quantity −5 is accepted and durably inserted. -/
theorem C6_submission_accepted_witness :
    ∃ ts, (createOrder 4 c6Data [] ({} : Db)).result = Except.ok
      ({ id := Db.nextId {}
         client_id := c6Data.client_id
         instrument := c6Data.instrument
         side := c6Data.side
         otype := c6Data.otype
         price := if c6Data.otype = "limit" then c6Data.price else none
         quantity := c6Data.quantity
         remaining_quantity := c6Data.quantity
         status := "open"
         created_at := Db.nextId {}
         idempotency_key := none }, ts) ∧
      (findRow (createOrder 4 c6Data [] {}).db.orders (Db.nextId {})).isSome :=
  C6_submission_accepted 4 c6Data [] {} (by decide) (by decide) (by decide)
    (by decide) (by decide) (by with_unfolding_all rfl)

theorem oppMap_setOppPrices (b : Book) (i : Bool) (ps : List ℚ) (j : Bool) :
    oppMap (setOppPrices b i ps) j = oppMap b j := by
  cases i <;> cases j <;> simp [oppMap, setOppPrices]

theorem oppMap_priceCut (b : Book) (i : Bool) (p : ℚ) (j : Bool) :
    oppMap (priceCut b i p) j = oppMap b j :=
  oppMap_setOppPrices b i _ j

theorem oppMap_setOppMap_same (b : Book) (i : Bool) (m : List (ℚ × List Order)) :
    oppMap (setOppMap b i m) i = m := by
  cases i <;> simp [oppMap, setOppMap]

theorem oppMap_setLevel_same (b : Book) (i : Bool) (p : ℚ) (l : List Order) :
    oppMap (setLevel b i p l) i = alSet (oppMap b i) p l :=
  oppMap_setOppMap_same b i _

theorem oppMap_dropHeadClean_same (b : Book) (i : Bool) (p : ℚ)
    (rest : List Order) :
    oppMap (dropHeadClean b i p rest) i =
      if rest = [] then alDel (oppMap b i) p else alSet (oppMap b i) p rest := by
  unfold dropHeadClean
  split
  · rw [oppMap_setOppPrices, oppMap_setOppMap_same]
  · rw [oppMap_setLevel_same]

theorem oppMap_commitBook_same (b : Book) (i : Bool) (p : ℚ) (resting : Order)
    (rest : List Order) (newRem : ℚ) :
    oppMap (commitBook b i p resting rest newRem) i =
      if newRem = 0 then
        (if rest = [] then alDel (oppMap b i) p else alSet (oppMap b i) p rest)
      else
        alSet (oppMap b i) p
          ({ resting with remaining_quantity := newRem } :: rest) := by
  unfold commitBook
  split
  · rw [oppMap_dropHeadClean_same]
  · rw [oppMap_setLevel_same]

theorem WFSideMap_alSet (m : List (ℚ × List Order)) (k : ℚ) (l : List Order)
    (hm : WFSideMap m) (hl : ∀ e ∈ l, e.price = some k) :
    WFSideMap (alSet m k l) := by
  intro kl hkl e he
  rcases mem_alSet hkl with h | h
  · subst h
    exact hl e he
  · exact hm kl h e he

theorem WFSideMap_alDel (m : List (ℚ × List Order)) (k : ℚ)
    (hm : WFSideMap m) : WFSideMap (alDel m k) :=
  fun kl h e he => hm kl (mem_alDel h) e he

theorem PricesMatchDb_alSet (m : List (ℚ × List Order)) (k : ℚ)
    (l : List Order) (db : Db) (hm : PricesMatchDb m db)
    (hl : ∀ e ∈ l, ∀ row, findRow db.orders e.id = some row →
      row.price = e.price) :
    PricesMatchDb (alSet m k l) db := by
  intro kl hkl e he row hrow
  rcases mem_alSet hkl with h | h
  · subst h
    exact hl e he row hrow
  · exact hm kl h e he row hrow

theorem PricesMatchDb_alDel (m : List (ℚ × List Order)) (k : ℚ) (db : Db)
    (hm : PricesMatchDb m db) : PricesMatchDb (alDel m k) db :=
  fun kl h e he row hrow => hm kl (mem_alDel h) e he row hrow

theorem price_updateRow_fun (x : Order) (oid : Nat) (rem : ℚ) (st : String) :
    ((if x.id = oid then
      ({ x with remaining_quantity := rem, status := st } : Order)
    else x)).price = x.price := by
  split <;> rfl

/-- `commitDb` preserves every row's existence and price. -/
theorem findRow_commitDb_price (db : Db) (incoming resting rRow inRow : Order)
    (q : ℚ) (oid : Nat) (row : Order)
    (h : findRow db.orders oid = some row) :
    ∃ row', findRow (commitDb db incoming resting rRow inRow q).orders oid =
      some row' ∧ row'.price = row.price := by
  simp only [commitDb, findRow_updateRow, h, Option.map_some]
  refine ⟨_, rfl, ?_⟩
  rw [price_updateRow_fun, price_updateRow_fun]

/-- Conversely, every row of a committed store descends from a pre-commit
row with the same price. -/
theorem findRow_commitDb_price_rev (db : Db) (incoming resting rRow inRow : Order)
    (q : ℚ) (oid : Nat) (row : Order)
    (h : findRow (commitDb db incoming resting rRow inRow q).orders oid =
      some row) :
    ∃ row0, findRow db.orders oid = some row0 ∧ row.price = row0.price := by
  simp only [commitDb, findRow_updateRow] at h
  cases hfr0 : findRow db.orders oid with
  | none => rw [hfr0] at h; simp at h
  | some r0 =>
    rw [hfr0] at h
    simp only [Option.map_some'] at h
    refine ⟨r0, rfl, ?_⟩
    have h' := Option.some.inj h
    rw [← h', price_updateRow_fun, price_updateRow_fun]

/-- A book-to-store price agreement survives a commit. -/
theorem PricesMatchDb_commitDb (m : List (ℚ × List Order)) (db : Db)
    (incoming resting rRow inRow : Order) (q : ℚ)
    (hm : PricesMatchDb m db) :
    PricesMatchDb m (commitDb db incoming resting rRow inRow q) := by
  intro kl hkl e he row hrow
  obtain ⟨row0, h0, hpeq⟩ :=
    findRow_commitDb_price_rev db incoming resting rRow inRow q e.id row hrow
  rw [hpeq]
  exact hm kl hkl e he row0 h0

/-- Claim C4: price protection.  For every trade the matcher commits for a
limit incoming order: the trade price respects the incoming leg's limit
(≤ the buy limit when the incoming is the buy leg, ≥ the sell limit when
it is the sell leg), and the trade price *equals* the resting leg's
durable price (which also survives in the final store), hence trivially
respects the resting leg's limit on the other side.  Hypotheses: every
book entry sits under its own price key and agrees with its durable row's
price — both invariants `addOrderToBook` and recovery establish by
construction. -/
theorem C4_price_protection (fuel : Nat) (incoming : Order) (book : Book)
    (db : Db)
    (hwf : WFSideMap (oppMap book (isBuySide incoming)))
    (hpm : PricesMatchDb (oppMap book (isBuySide incoming)) db) :
    ∀ T ∈ (processIncomingOrder fuel incoming book db).trades,
      (incoming.otype = "limit" →
        (isBuySide incoming = true → T.price ≤ jsNum incoming.price) ∧
        (isBuySide incoming = false → jsNum incoming.price ≤ T.price)) ∧
      ∃ row, findRow (processIncomingOrder fuel incoming book db).db.orders
          (restingLegId incoming T) = some row ∧ row.price = some T.price := by
  obtain ⟨rem', book', db', acc', e, heq, hP, _⟩ :=
    matchLoop_ind incoming
      (fun _ book db acc =>
        WFSideMap (oppMap book (isBuySide incoming)) ∧
        PricesMatchDb (oppMap book (isBuySide incoming)) db ∧
        ∀ T ∈ acc,
          (incoming.otype = "limit" →
            (isBuySide incoming = true → T.price ≤ jsNum incoming.price) ∧
            (isBuySide incoming = false → jsNum incoming.price ≤ T.price)) ∧
          ∃ row, findRow db.orders (restingLegId incoming T) = some row ∧
            row.price = some T.price)
      (by
        intro rem book db acc bestPrice _ _ _ hP
        rw [oppMap_priceCut]
        exact hP)
      (by
        intro rem book db acc bestPrice resting restTail _ _ halev _ hP
        obtain ⟨hwf1, hpm1, hacc⟩ := hP
        have hmem := alGet_mem halev
        refine ⟨?_, ?_, hacc⟩ <;> rw [oppMap_dropHeadClean_same] <;> split
        · exact WFSideMap_alDel _ _ hwf1
        · exact WFSideMap_alSet _ _ _ hwf1 fun e he =>
            hwf1 _ hmem e (List.mem_cons_of_mem _ he)
        · exact PricesMatchDb_alDel _ _ _ hpm1
        · exact PricesMatchDb_alSet _ _ _ _ hpm1 fun e he =>
            hpm1 _ hmem e (List.mem_cons_of_mem _ he)
      )
      (by
        intro rem book db acc bestPrice resting restTail _ _ halev _ _ hP
        obtain ⟨hwf1, hpm1, hacc⟩ := hP
        have hmem := alGet_mem halev
        refine ⟨?_, ?_, hacc⟩ <;> rw [oppMap_setLevel_same]
        · exact WFSideMap_alSet _ _ _ hwf1 fun e he =>
            hwf1 _ hmem e (List.mem_cons_of_mem _ he)
        · exact PricesMatchDb_alSet _ _ _ _ hpm1 fun e he =>
            hpm1 _ hmem e (List.mem_cons_of_mem _ he)
      )
      (by
        intro rem book db acc bestPrice resting restTail rRow inRow
          _ _ hpc halev _ hfr _ _ hP
        obtain ⟨hwf1, hpm1, hacc⟩ := hP
        have hmem := alGet_mem halev
        have hrprice : resting.price = some bestPrice :=
          hwf1 _ hmem resting (List.mem_cons_self _ _)
        have hrowprice : rRow.price = some bestPrice := by
          rw [hpm1 _ hmem resting (List.mem_cons_self _ _) rRow hfr, hrprice]
        refine ⟨?_, ?_, ?_⟩
        · rw [oppMap_commitBook_same]
          split
          · split
            · exact WFSideMap_alDel _ _ hwf1
            · exact WFSideMap_alSet _ _ _ hwf1 fun e he =>
                hwf1 _ hmem e (List.mem_cons_of_mem _ he)
          · refine WFSideMap_alSet _ _ _ hwf1 fun e he => ?_
            rcases List.mem_cons.mp he with h | h
            · subst h
              exact hrprice
            · exact hwf1 _ hmem e (List.mem_cons_of_mem _ h)
        · -- book-to-store price agreement against the committed store
          have hpm2 : PricesMatchDb (oppMap book (isBuySide incoming))
              (commitDb db incoming resting rRow inRow
                (min (min rem resting.remaining_quantity)
                  rRow.remaining_quantity)) :=
            PricesMatchDb_commitDb _ _ _ _ _ _ _ hpm1
          rw [oppMap_commitBook_same]
          split
          · split
            · exact PricesMatchDb_alDel _ _ _ hpm2
            · exact PricesMatchDb_alSet _ _ _ _ hpm2 fun e he =>
                hpm2 _ hmem e (List.mem_cons_of_mem _ he)
          · refine PricesMatchDb_alSet _ _ _ _ hpm2 fun e he => ?_
            rcases List.mem_cons.mp he with h | h
            · subst h
              intro row hrow
              obtain ⟨row0, h0, hpeq⟩ :=
                findRow_commitDb_price_rev db incoming resting rRow inRow _ _ _ hrow
              rw [hpeq]
              have : row0 = rRow := by
                rw [h0] at hfr
                exact Option.some.inj hfr
              rw [this, hrowprice, hrprice]
            · exact hpm2 _ hmem e (List.mem_cons_of_mem _ h)
        · -- the emitted trades, old and new
          intro T hT
          rcases List.mem_append.mp hT with hold | hnew
          · obtain ⟨hbound, row, hfind, hprice⟩ := hacc T hold
            obtain ⟨row', hfind', hpeq⟩ :=
              findRow_commitDb_price db incoming resting rRow inRow _ _ _ hfind
            exact ⟨hbound, row', hfind', by rw [hpeq, hprice]⟩
          · have hTeq : T = theTrade incoming db resting
                (min (min rem resting.remaining_quantity) rRow.remaining_quantity) := by
              simpa using hnew
            subst hTeq
            have hTprice : (theTrade incoming db resting
                (min (min rem resting.remaining_quantity)
                  rRow.remaining_quantity)).price = bestPrice := by
              simp [theTrade, jsNum, hrprice]
            constructor
            · intro hlimit
              constructor
              · intro hib
                rw [hTprice]
                by_contra hgt
                exact hpc ⟨hlimit, Or.inl ⟨hib, lt_of_not_ge hgt⟩⟩
              · intro hib
                rw [hTprice]
                by_contra hlt
                exact hpc ⟨hlimit, Or.inr ⟨hib, lt_of_not_ge hlt⟩⟩
            · have hleg : restingLegId incoming (theTrade incoming db resting
                  (min (min rem resting.remaining_quantity)
                    rRow.remaining_quantity)) = resting.id := by
                cases hib : isBuySide incoming <;>
                  simp [restingLegId, theTrade, hib]
              rw [hleg]
              obtain ⟨row', hfind', hpeq⟩ :=
                findRow_commitDb_price db incoming resting rRow inRow _ _ _ hfr
              exact ⟨row', hfind', by rw [hpeq, hrowprice, hTprice]⟩
      )
      fuel incoming.remaining_quantity book db [] ⟨hwf, hpm, by simp⟩
  simp only [processIncomingOrder]
  rw [heq]
  exact fun T hT => (hP.2.2) T hT

/-- Witness for `C4_price_protection`: the 3@101 buy against the 4@100 ask
trades at the resting price 100, within the buy limit. -/
theorem C4_price_protection_witness :
    (processIncomingOrder 4 c4Buy c4Book c4Db).trades = [c4Trade] ∧
    c4Trade.price ≤ jsNum c4Buy.price := by
  have htr : (processIncomingOrder 4 c4Buy c4Book c4Db).trades = [c4Trade] := by
    with_unfolding_all rfl
  refine ⟨htr, ?_⟩
  have hmap : oppMap c4Book (isBuySide c4Buy) = [(100, [c4Rest])] := by
    with_unfolding_all rfl
  have hwf : WFSideMap (oppMap c4Book (isBuySide c4Buy)) := by
    intro kl hkl e he
    rw [hmap] at hkl
    have hkl' : kl = ((100 : ℚ), [c4Rest]) := by simpa using hkl
    subst hkl'
    have he' : e = c4Rest := by simpa using he
    subst he'
    with_unfolding_all rfl
  have hpm : PricesMatchDb (oppMap c4Book (isBuySide c4Buy)) c4Db := by
    intro kl hkl e he row hrow
    rw [hmap] at hkl
    have hkl' : kl = ((100 : ℚ), [c4Rest]) := by simpa using hkl
    subst hkl'
    have he' : e = c4Rest := by simpa using he
    subst he'
    have hfind : findRow c4Db.orders c4Rest.id = some c4Rest := by
      with_unfolding_all rfl
    rw [hfind] at hrow
    rw [← Option.some.inj hrow]
  have h := C4_price_protection 4 c4Buy c4Book c4Db hwf hpm c4Trade
    (by rw [htr]; exact List.mem_singleton.mpr rfl)
  exact (h.1 rfl).1 rfl

theorem NotInMap_alSet (m : List (ℚ × List Order)) (k : ℚ) (l : List Order)
    (oid : Nat) (hm : NotInMap m oid) (hl : ∀ e ∈ l, e.id ≠ oid) :
    NotInMap (alSet m k l) oid := by
  intro kl hkl e he
  rcases mem_alSet hkl with h | h
  · subst h
    exact hl e he
  · exact hm kl h e he

theorem NotInMap_alDel (m : List (ℚ × List Order)) (k : ℚ) (oid : Nat)
    (hm : NotInMap m oid) : NotInMap (alDel m k) oid :=
  fun kl h e he => hm kl (mem_alDel h) e he

theorem mk_update_id (x : Order) (r : ℚ) (s : String) :
    ({ x with remaining_quantity := r, status := s } : Order).id = x.id := rfl

theorem mk_update_rem (x : Order) (r : ℚ) (s : String) :
    ({ x with remaining_quantity := r, status := s } : Order).remaining_quantity
      = r := rfl

theorem mk_update_qty (x : Order) (r : ℚ) (s : String) :
    ({ x with remaining_quantity := r, status := s } : Order).quantity =
      x.quantity := rfl

theorem id_updateRow_fun (x : Order) (oid : Nat) (rem : ℚ) (st : String) :
    ((if x.id = oid then
      ({ x with remaining_quantity := rem, status := st } : Order)
    else x)).id = x.id := by
  split <;> rfl

theorem quantity_updateRow_fun (x : Order) (oid : Nat) (rem : ℚ) (st : String) :
    ((if x.id = oid then
      ({ x with remaining_quantity := rem, status := st } : Order)
    else x)).quantity = x.quantity := by
  split <;> rfl

theorem map_id_updateRow (l : List Order) (oid : Nat) (rem : ℚ) (st : String) :
    (updateRow l oid rem st).map Order.id = l.map Order.id := by
  unfold updateRow
  rw [List.map_map]
  apply List.map_congr_left
  intro x _
  exact id_updateRow_fun x oid rem st

theorem findRow_eq_of_nodup {l : List Order} {r : Order} {oid : Nat}
    (hnd : (l.map Order.id).Nodup) (hr : r ∈ l) (hid : r.id = oid) :
    findRow l oid = some r := by
  induction l with
  | nil => simp at hr
  | cons x rest ih =>
    rw [List.map_cons, List.nodup_cons] at hnd
    rcases List.mem_cons.mp hr with h | h
    · subst h
      simp [findRow, hid]
    · have hx : x.id ≠ oid := by
        intro hxid
        exact hnd.1 (by rw [hxid, ← hid]; exact List.mem_map_of_mem Order.id h)
      simp [findRow, hx]
      exact ih hnd.2 h

theorem tradeSum_append_single (ts : List Trade) (t : Trade) (oid : Nat) :
    tradeSum (ts ++ [t]) oid =
      tradeSum ts oid +
        (if t.buy_order_id = oid ∨ t.sell_order_id = oid then t.quantity
         else 0) := by
  unfold tradeSum
  rw [List.filter_append]
  by_cases h : t.buy_order_id = oid ∨ t.sell_order_id = oid
  · simp [h]
  · simp [h]

/-- Claim C3 (amended): the durability unit aborts only when the resting
row is missing or its durable remaining is ≤ 0; when the durable
remaining is positive but below the quantity about to be traded it clamps
the trade to the durable remaining (see
`C3_skew_commits_instead_of_aborting`), and the incoming leg's durable
remaining is floored at zero rather than checked.  Conservation
nevertheless holds at quiescent points: a matching run preserves
`O.quantity = O.remaining + Σ trades involving O` provided ids are
unique, the incoming order's durable remaining agrees with its in-memory
remaining at the start of the run, and the incoming order is not resting
on the opposite side. -/
theorem C3_conservation_preserved (fuel : Nat) (incoming : Order)
    (book : Book) (db : Db)
    (hC : Conservation db)
    (hnd : (db.orders.map Order.id).Nodup)
    (hsync : ∃ row, findRow db.orders incoming.id = some row ∧
      row.remaining_quantity = incoming.remaining_quantity)
    (hnin : NotInMap (oppMap book (isBuySide incoming)) incoming.id) :
    Conservation (processIncomingOrder fuel incoming book db).db := by
  obtain ⟨rem', book', db', acc', e, heq, hP, _⟩ :=
    matchLoop_ind incoming
      (fun rem book db _ =>
        Conservation db ∧
        (db.orders.map Order.id).Nodup ∧
        (∃ row, findRow db.orders incoming.id = some row ∧
          row.remaining_quantity = rem) ∧
        NotInMap (oppMap book (isBuySide incoming)) incoming.id)
      (by
        intro rem book db acc bestPrice _ _ _ hP
        obtain ⟨hC1, hnd1, hs1, hn1⟩ := hP
        exact ⟨hC1, hnd1, hs1, by rw [oppMap_priceCut]; exact hn1⟩)
      (by
        intro rem book db acc bestPrice resting restTail _ _ halev _ hP
        obtain ⟨hC1, hnd1, hs1, hn1⟩ := hP
        have hmem := alGet_mem halev
        refine ⟨hC1, hnd1, hs1, ?_⟩
        rw [oppMap_dropHeadClean_same]
        split
        · exact NotInMap_alDel _ _ _ hn1
        · exact NotInMap_alSet _ _ _ _ hn1 fun e he =>
            hn1 _ hmem e (List.mem_cons_of_mem _ he))
      (by
        intro rem book db acc bestPrice resting restTail _ _ halev _ _ hP
        obtain ⟨hC1, hnd1, hs1, hn1⟩ := hP
        have hmem := alGet_mem halev
        refine ⟨hC1, hnd1, hs1, ?_⟩
        rw [oppMap_setLevel_same]
        exact NotInMap_alSet _ _ _ _ hn1 fun e he =>
          hn1 _ hmem e (List.mem_cons_of_mem _ he))
      (by
        intro rem book db acc bestPrice resting restTail rRow inRow
          _ _ _ halev _ hfr _ hfi hP
        obtain ⟨hC1, hnd1, ⟨row, hfind, hrem⟩, hn1⟩ := hP
        have hmem := alGet_mem halev
        have hrid : resting.id ≠ incoming.id :=
          hn1 _ hmem resting (List.mem_cons_self _ _)
        have hrowid : row.id = incoming.id := (findRow_mem hfind).2
        have hrowne : row.id ≠ resting.id := by
          rw [hrowid]
          exact fun h => hrid h.symm
        set q := min (min rem resting.remaining_quantity)
          rRow.remaining_quantity with hqdef
        have hIn : inRow = row := by
          rw [findRow_updateRow, hfind] at hfi
          simp only [Option.map_some'] at hfi
          rw [if_neg hrowne] at hfi
          exact (Option.some.inj hfi).symm
        have hqle : q ≤ rem :=
          le_trans (min_le_left _ _) (min_le_left _ _)
        have hmax : max 0 (inRow.remaining_quantity - q) = rem - q := by
          rw [hIn, hrem]
          exact max_eq_right (sub_nonneg.mpr hqle)
        have hordeq : (commitDb db incoming resting rRow inRow q).orders =
            updateRow
              (updateRow db.orders resting.id (rRow.remaining_quantity - q)
                (if rRow.remaining_quantity - q = 0 then "filled"
                 else "partially_filled"))
              incoming.id (max 0 (inRow.remaining_quantity - q))
              (if max 0 (inRow.remaining_quantity - q) = 0 then "filled"
               else "partially_filled") := rfl
        have htreq : (commitDb db incoming resting rRow inRow q).trades =
            db.trades ++ [theTrade incoming db resting q] := rfl
        refine ⟨?_, ?_, ?_, ?_⟩
        · -- conservation survives the commit
          intro r' hr'
          rw [hordeq] at hr'
          simp only [updateRow, List.map_map, List.mem_map] at hr'
          obtain ⟨b, hb, hbr'⟩ := hr'
          rw [htreq]
          simp only [Function.comp] at hbr'
          subst hbr'
          have hlegq : (theTrade incoming db resting q).quantity = q := rfl
          by_cases hbin : b.id = incoming.id
          · by_cases hbres : b.id = resting.id
            · exact absurd (by rw [← hbres, hbin]) hrid
            · have hbeq : b = row := by
                have h1 := findRow_eq_of_nodup hnd1 hb hbin
                rw [h1] at hfind
                exact Option.some.inj hfind
              simp only [if_pos hbin, if_neg hbres]
              rw [tradeSum_append_single]
              have hlegs : (theTrade incoming db resting q).buy_order_id = b.id ∨
                  (theTrade incoming db resting q).sell_order_id = b.id := by
                cases hib : isBuySide incoming <;>
                  simp [theTrade, hib, hbin]
              rw [if_pos hlegs, hlegq, hmax]
              have hbrem : b.remaining_quantity = rem := by
                rw [hbeq]; exact hrem
              rw [hC1 b hb, hbrem]
              ring
          · by_cases hbres : b.id = resting.id
            · have hbeq : b = rRow := by
                have h1 := findRow_eq_of_nodup hnd1 hb hbres
                rw [h1] at hfr
                exact Option.some.inj hfr
              simp only [if_neg hbin, if_pos hbres]
              rw [tradeSum_append_single]
              have hlegs : (theTrade incoming db resting q).buy_order_id = b.id ∨
                  (theTrade incoming db resting q).sell_order_id = b.id := by
                cases hib : isBuySide incoming <;>
                  simp [theTrade, hib, hbres]
              rw [if_pos hlegs, hlegq, ← hbeq, hC1 b hb]
              ring
            · simp only [if_neg hbin, if_neg hbres]
              rw [tradeSum_append_single]
              have hnl : ¬ ((theTrade incoming db resting q).buy_order_id = b.id ∨
                  (theTrade incoming db resting q).sell_order_id = b.id) := by
                cases hib : isBuySide incoming <;>
                  simp only [theTrade, hib] <;>
                  rintro (h | h) <;>
                  first
                    | exact hbin h.symm
                    | exact hbres h.symm
              rw [if_neg hnl, add_zero]
              exact hC1 b hb
        · -- id uniqueness survives
          rw [hordeq, map_id_updateRow, map_id_updateRow]
          exact hnd1
        · -- the incoming row stays in sync with the loop's remaining
          refine ⟨{ row with
              remaining_quantity := max 0 (inRow.remaining_quantity - q)
              status := (if max 0 (inRow.remaining_quantity - q) = 0 then
                "filled" else "partially_filled") }, ?_, ?_⟩
          · rw [hordeq, findRow_updateRow, findRow_updateRow, hfind]
            simp only [Option.map_some']
            rw [if_neg hrowne, if_pos hrowid]
          · rw [mk_update_rem, hmax]
        · -- the incoming order still is not resting on the opposite side
          rw [oppMap_commitBook_same]
          split
          · split
            · exact NotInMap_alDel _ _ _ hn1
            · exact NotInMap_alSet _ _ _ _ hn1 fun e he =>
                hn1 _ hmem e (List.mem_cons_of_mem _ he)
          · refine NotInMap_alSet _ _ _ _ hn1 fun e he => ?_
            rcases List.mem_cons.mp he with h | h
            · subst h
              rw [mk_update_id]
              exact hrid
            · exact hn1 _ hmem e (List.mem_cons_of_mem _ h))
      fuel incoming.remaining_quantity book db []
      ⟨hC, hnd, hsync, hnin⟩
  simp only [processIncomingOrder]
  rw [heq]
  exact hP.1

/-- Witness for `C3_conservation_preserved`: the S1 cross run keeps
conservation (trade of 10 recorded, both remainings now 0). -/
theorem C3_conservation_preserved_witness :
    Conservation (processIncomingOrder 4 c2Buy (addOrderToBook {} c2Rest) c2Db).db := by
  have hmap : oppMap (addOrderToBook {} c2Rest) (isBuySide c2Buy) =
      [(100, [c2Rest])] := by
    with_unfolding_all rfl
  refine C3_conservation_preserved 4 c2Buy (addOrderToBook {} c2Rest) c2Db
    ?_ (by decide) ⟨c2Buy, by with_unfolding_all rfl, rfl⟩ ?_
  · intro r hr
    have h2 : r = c2Rest ∨ r = c2Buy := by simpa [c2Db] using hr
    rcases h2 with h | h <;> subst h <;>
      simp [tradeSum, c2Rest, c2Buy, c1Rest, c1Buy, c2Db]
  · intro kl hkl e he
    rw [hmap] at hkl
    have hkl' : kl = ((100 : ℚ), [c2Rest]) := by simpa using hkl
    subst hkl'
    have he' : e = c2Rest := by simpa using he
    subst he'
    decide

/-- Claim C1 (failing input): the cancel of resting order 1 durably
commits first — `cancelOrder` returns the order (a successful cancel) and
the committed row reads `status = 'cancelled'` with its remaining quantity
10 left untouched.  The matcher unit that then reads the row checks only
`remaining_quantity <= 0`, never the status, so it commits a trade for the
full 10 that was just successfully cancelled and overwrites the row to
`'filled'` — the very "both a fill and a successful cancel of the same
quantity" the claim rules out. -/
theorem C1_committed_cancel_then_filled :
    (cancelOrder c1Db 1).1 = some c1Rest ∧
    findRow c1Cancelled.orders 1 =
      some { c1Rest with status := "cancelled" } ∧
    c1Run.trades = [⟨50, 2, 1, "AAPL", 100, 10⟩] ∧
    findRow c1Run.db.orders 1 =
      some { c1Rest with status := "filled", remaining_quantity := 0 } := by
  refine ⟨?_, ?_, ?_, ?_⟩ <;> with_unfolding_all rfl

/-- Claim C2 (failing input): the S1 simple cross.  The incoming buy is
fully filled (durable remaining 0, one trade for the full 10), yet the
matcher leaves its entry in the bids book — its in-memory
`remaining_quantity` is never even decremented — so a price level of its
own side still contains the filled order when processing finishes. -/
theorem C2_filled_incoming_left_in_book :
    c2Run.trades = [⟨60, 2, 1, "AAPL", 100, 10⟩] ∧
    findRow c2Run.db.orders 2 =
      some { c2Buy with status := "filled", remaining_quantity := 0 } ∧
    alGet c2Run.book.bids 100 = some [c2Buy] ∧
    c2Run.book.bidPrices = [100] := by
  refine ⟨?_, ?_, ?_, ?_⟩ <;> with_unfolding_all rfl

/-- Claim C3 (counterexample to the abort clause): the quantity about to
be traded is `min(2, 2) = 2`, while the resting leg's durable remaining is
1 — strictly below it.  The durability unit does not abort: it inserts a
trade clamped to quantity 1. -/
theorem C3_skew_commits_instead_of_aborting :
    c3Row.remaining_quantity = 1 ∧
    min c3Buy.remaining_quantity c3Rest.remaining_quantity = 2 ∧
    c3Run.trades = [⟨7, 2, 1, "A", 100, 1⟩] ∧
    c3Run.db.trades ≠ [] := by
  refine ⟨?_, ?_, ?_, ?_⟩
  · with_unfolding_all rfl
  · with_unfolding_all rfl
  · with_unfolding_all rfl
  · intro h
    have h2 : c3Run.db.trades = [⟨7, 2, 1, "A", 100, 1⟩] := by
      with_unfolding_all rfl
    simp [h] at h2

/-- Claim C6 (counterexample): a submission with `type = "market"`, a
present price and quantity −5 sails through validation — `createOrder`
returns a success carrying the accepted order (price silently nulled) and
inserts a row, instead of returning a validation error and leaving the
store unchanged. -/
theorem C6_market_price_negative_qty_accepted :
    c6Data.otype = "market" ∧
    c6Data.price = some 50 ∧
    c6Data.quantity < 0 ∧
    c6Run.result = Except.ok (c6Inserted, []) ∧
    c6Run.db.orders = [c6Inserted] := by
  refine ⟨?_, ?_, ?_, ?_, ?_⟩
  · with_unfolding_all rfl
  · with_unfolding_all rfl
  · show c6Data.quantity < 0
    norm_num [c6Data]
  · with_unfolding_all rfl
  · with_unfolding_all rfl

/-- Claim C7 (counterexample): cancelling order 1, which is already
`'cancelled'` and non-resting, does not return the typed negative result —
`cancelOrder` treats it as cancellable again and returns the order
snapshot as a success (re-running the status update). -/
theorem C7_cancel_of_cancelled_succeeds :
    c7Row.status = "cancelled" ∧
    (cancelOrder c7Db 1).1 = some c7Row := by
  exact ⟨by with_unfolding_all rfl, by with_unfolding_all rfl⟩

/-- Claim C8 (counterexample): submission 1 (key "K") returns the accepted
order with an empty trade set; a later counter-order fills it; the replay
of submission 1 under the same key returns a different order snapshot
(`filled`, remaining 0) and a different trade set (the one trade) — not
the same accepted order and trade set as the first submission.  No new row
is inserted by the replay. -/
theorem C8_replay_returns_different_result :
    c8Run1.result = Except.ok (c8Order0, []) ∧
    c8Run3.result = Except.ok
      ({ c8Order0 with status := "filled", remaining_quantity := 0 },
       [c8Trade]) ∧
    c8Run3.db.orders.length = c8Run2.db.orders.length := by
  refine ⟨?_, ?_, ?_⟩ <;> with_unfolding_all rfl

/-- Claim C7 (amended): cancellation of a *filled* or *unknown* order
returns the typed negative result (`null`) and leaves the durable rows
unchanged (`cancelOrder` never touches the engine's in-memory book on any
path — its state is the durable store alone).  An *already-cancelled*
order with positive remaining, however, is treated as cancellable again:
the order snapshot is returned as a success. -/
theorem C7_cancel_nonresting_amended (db : Db) (oid : Nat) :
    (findRow db.orders oid = none → cancelOrder db oid = (none, db)) ∧
    (∀ row, findRow db.orders oid = some row →
      row.status = "filled" ∨ row.remaining_quantity = 0 →
      cancelOrder db oid = (none, db)) ∧
    (∀ row, findRow db.orders oid = some row → row.status = "cancelled" →
      row.remaining_quantity ≠ 0 → (cancelOrder db oid).1 = some row) := by
  refine ⟨fun h => ?_, fun row h hd => ?_, fun row h hc hr => ?_⟩
  · simp [cancelOrder, h]
  · simp only [cancelOrder, h]
    rw [if_pos hd]
  · simp only [cancelOrder, h]
    have hcond : ¬ (row.status = "filled" ∨ row.remaining_quantity = 0) := by
      rintro (h1 | h2)
      · rw [hc] at h1
        exact absurd h1 (by decide)
      · exact hr h2
    rw [if_neg hcond]

/-- Witness for `C7_cancel_nonresting_amended`: the filled order 2 and the
unknown id 9 are refused without mutation, while the already-cancelled
order 1 (remaining 5) is "cancelled" again successfully. -/
theorem C7_cancel_nonresting_amended_witness :
    cancelOrder c7FilledDb 2 = (none, c7FilledDb) ∧
    cancelOrder c7FilledDb 9 = (none, c7FilledDb) ∧
    (cancelOrder c7Db 1).1 = some c7Row :=
  ⟨(C7_cancel_nonresting_amended c7FilledDb 2).2.1 c7FilledRow
      (by with_unfolding_all rfl) (Or.inr (by with_unfolding_all rfl)),
   (C7_cancel_nonresting_amended c7FilledDb 9).1 (by with_unfolding_all rfl),
   (C7_cancel_nonresting_amended c7Db 1).2.2 c7Row
      (by with_unfolding_all rfl) (by with_unfolding_all rfl) (by decide)⟩

/-- Claim C8 (amended): a submission whose normalised idempotency key
already identifies a stored order inserts nothing (store and registry are
returned unchanged) and returns that stored row *in its current state*
together with ALL committed trades in which it is a leg — a superset of
the trade set the first submission returned, not necessarily the same
set. -/
theorem C8_idempotent_replay_amended (fuel : Nat) (data : SubmitData)
    (books : Books) (db : Db) (k : String) (row : Order)
    (h1 : data.client_id ≠ "") (h2 : data.instrument ≠ "")
    (h3 : data.side ≠ "") (h4 : data.otype ≠ "")
    (h5 : ¬ (data.otype = "limit" ∧ (data.price = none ∨ data.price = some 0)))
    (hk : normKey data.idempotency_key = some k)
    (hrow : findByKey db.orders k = some row) :
    createOrder fuel data books db =
      ⟨Except.ok (row, tradesFor db row.id), books, db⟩ := by
  unfold createOrder
  rw [if_neg h1, if_neg h2, if_neg h3, if_neg h4, if_neg h5]
  dsimp only
  rw [hk]
  dsimp only
  rw [hrow]

/-- Witness for `C8_idempotent_replay_amended`: the replay of submission
"K" after the fill returns the stored (now filled) row and its one trade,
leaving store and registry untouched. -/
theorem C8_idempotent_replay_amended_witness :
    createOrder 4 c8SubA c8Run2.books c8Run2.db =
      ⟨Except.ok
        ({ c8Order0 with status := "filled", remaining_quantity := 0 },
         tradesFor c8Run2.db 0),
       c8Run2.books, c8Run2.db⟩ :=
  C8_idempotent_replay_amended 4 c8SubA c8Run2.books c8Run2.db "K"
    { c8Order0 with status := "filled", remaining_quantity := 0 }
    (by decide) (by decide) (by decide) (by decide) (by decide)
    (by with_unfolding_all rfl) (by with_unfolding_all rfl)

theorem getBook_alSet (bks : Books) (inst' : String) (b : Book)
    (inst : String) :
    getBook (alSet bks inst' b) inst =
      if inst' = inst then b else getBook bks inst := by
  unfold getBook
  rw [alGet_alSet]
  split <;> rfl

theorem addOrder_level (b : Book) (o : Order) (h1 : o.otype = "limit")
    (h2 : o.price ≠ none) (side : Bool) (k : ℚ) :
    (alGet (sideOf (addOrderToBook b o) side) k).getD [] =
      (alGet (sideOf b side) k).getD [] ++
        (if decide (o.side = "buy") = side ∧ jsNum o.price = k then [o]
         else []) := by
  unfold addOrderToBook
  rw [if_pos ⟨h1, h2⟩]
  by_cases hs : o.side = "buy"
  · rw [if_pos hs]
    cases side with
    | true =>
      show (alGet (alSet b.bids (jsNum o.price) _) k).getD [] = _
      rw [alGet_alSet]
      by_cases hk : jsNum o.price = k
      · rw [if_pos hk, if_pos ⟨by simp [hs], hk⟩]
        rw [hk]
        rfl
      · rw [if_neg hk, if_neg (by rintro ⟨_, h⟩; exact hk h)]
        simp [sideOf]
    | false =>
      show (alGet b.asks k).getD [] = _
      rw [if_neg (by rintro ⟨h, _⟩; simp [hs] at h)]
      simp [sideOf]
  · rw [if_neg hs]
    cases side with
    | true =>
      show (alGet b.bids k).getD [] = _
      rw [if_neg (by rintro ⟨h, _⟩; simp [hs] at h)]
      simp [sideOf]
    | false =>
      show (alGet (alSet b.asks (jsNum o.price) _) k).getD [] = _
      rw [alGet_alSet]
      by_cases hk : jsNum o.price = k
      · rw [if_pos hk, if_pos ⟨by simp [hs], hk⟩]
        rw [hk]
        rfl
      · rw [if_neg hk, if_neg (by rintro ⟨_, h⟩; exact hk h)]
        simp [sideOf]

theorem loadStep_level (bks : Books) (r : Order) (hr : eligibleRow r)
    (inst : String) (side : Bool) (k : ℚ) :
    levelList (loadStep bks r) inst side k =
      levelList bks inst side k ++
        (if rowAt inst side k r then [orderEntry r] else []) := by
  obtain ⟨hlim, _, hpr⟩ := hr
  unfold loadStep levelList
  rw [getBook_alSet]
  by_cases hi : r.instrument = inst
  · rw [if_pos hi]
    have h1 : (orderEntry r).otype = "limit" := hlim
    have h2 : (orderEntry r).price ≠ none := by simp [orderEntry]
    rw [addOrder_level _ _ h1 h2]
    subst hi
    congr 1
    by_cases hc : decide ((orderEntry r).side = "buy") = side ∧
        jsNum (orderEntry r).price = k
    · rw [if_pos hc, if_pos ?_]
      have : isBuySide r = decide ((orderEntry r).side = "buy") := rfl
      simp only [rowAt]
      rw [decide_eq_true_iff]
      refine ⟨by trivial, by rw [this]; exact hc.1, hc.2⟩
    · rw [if_neg hc, if_neg ?_]
      simp only [rowAt]
      rw [decide_eq_true_iff]
      rintro ⟨_, hside, hkey⟩
      exact hc ⟨hside, hkey⟩
  · rw [if_neg hi]
    have hfalse : rowAt inst side k r = false := by
      simp [rowAt, hi]
    rw [hfalse]
    simp

theorem fold_level (inst : String) (side : Bool) (k : ℚ) :
    ∀ (rs : List Order) (bks : Books), (∀ row ∈ rs, eligibleRow row) →
      levelList (rs.foldl loadStep bks) inst side k =
        levelList bks inst side k ++
          (rs.filter (rowAt inst side k)).map orderEntry := by
  intro rs
  induction rs with
  | nil => intro bks _; simp
  | cons r rest ih =>
    intro bks hall
    rw [List.foldl_cons,
      ih _ (fun row h => hall row (List.mem_cons_of_mem _ h)),
      loadStep_level bks r (hall r (List.mem_cons_self _ _)),
      List.filter_cons]
    by_cases hc : rowAt inst side k r = true
    · simp [hc, List.append_assoc]
    · have hcf : rowAt inst side k r = false := by
        simpa using hc
      simp [hcf]

/-- Claim C9: recovery.  `loadOpenOrdersFromDb` builds, for every
instrument, side and price, exactly the level consisting of the durable
limit orders with status `open`/`partially_filled` and non-null price that
belong there (converted by `orderEntry`, the recovery entry constructor),
in `created_at` ascending order — the fold inserts each row through
`addOrderToBook`, the same insertion path used for new resting orders,
and performs no matching (the durable store is not even passed to it).
Conjuncts: (a) level characterisation; (b) every eligible row is loaded
into its instrument's book on its own side and price; (c) only eligible
rows are loaded, each at its own instrument/side/price; (d) every level
is sorted by `created_at` ascending. -/
theorem C9_recovery (db : Db) :
    (∀ inst side k,
      levelList (loadOpenOrdersFromDb db) inst side k =
        ((List.insertionSort leCA
          (db.orders.filter fun r => decide (eligibleRow r))).filter
            (rowAt inst side k)).map orderEntry) ∧
    (∀ row ∈ db.orders, eligibleRow row →
      orderEntry row ∈ levelList (loadOpenOrdersFromDb db) row.instrument
        (isBuySide row) (jsNum row.price)) ∧
    (∀ inst side k e, e ∈ levelList (loadOpenOrdersFromDb db) inst side k →
      ∃ row ∈ db.orders, eligibleRow row ∧ e = orderEntry row ∧
        row.instrument = inst ∧ isBuySide row = side ∧ jsNum row.price = k) ∧
    (∀ inst side k,
      (levelList (loadOpenOrdersFromDb db) inst side k).Pairwise leCA) := by
  have hall : ∀ row ∈ List.insertionSort leCA
      (db.orders.filter fun r => decide (eligibleRow r)), eligibleRow row := by
    intro row h
    rw [(List.perm_insertionSort leCA _).mem_iff] at h
    exact of_decide_eq_true (List.mem_filter.mp h).2
  have hchar : ∀ inst side k,
      levelList (loadOpenOrdersFromDb db) inst side k =
        ((List.insertionSort leCA
          (db.orders.filter fun r => decide (eligibleRow r))).filter
            (rowAt inst side k)).map orderEntry := by
    intro inst side k
    unfold loadOpenOrdersFromDb
    rw [fold_level inst side k _ [] hall]
    have h0 : levelList [] inst side k = [] := by cases side <;> rfl
    rw [h0, List.nil_append]
  refine ⟨hchar, ?_, ?_, ?_⟩
  · intro row hrow helig
    rw [hchar]
    refine List.mem_map_of_mem orderEntry (List.mem_filter.mpr ⟨?_, ?_⟩)
    · rw [(List.perm_insertionSort leCA _).mem_iff]
      exact List.mem_filter.mpr ⟨hrow, decide_eq_true helig⟩
    · simp [rowAt]
  · intro inst side k e he
    rw [hchar] at he
    obtain ⟨row, hrow, hre⟩ := List.mem_map.mp he
    have h1 := List.mem_filter.mp hrow
    have h2 : row ∈ db.orders.filter fun r => decide (eligibleRow r) := by
      rw [← (List.perm_insertionSort leCA _).mem_iff]
      exact h1.1
    have h3 := List.mem_filter.mp h2
    have h4 := of_decide_eq_true h1.2
    exact ⟨row, h3.1, of_decide_eq_true h3.2, hre.symm, h4.1, h4.2.1, h4.2.2⟩
  · intro inst side k
    rw [hchar]
    rw [List.pairwise_map]
    have hsorted : (List.insertionSort leCA
        (db.orders.filter fun r => decide (eligibleRow r))).Pairwise leCA :=
      List.sorted_insertionSort leCA _
    exact List.Pairwise.filter _ hsorted

/-- Witness for `C9_recovery`: both open limit orders of the S1 store are
loaded into the AAPL book, and the ask level at 100 is created-at
sorted. -/
theorem C9_recovery_witness :
    orderEntry c2Buy ∈ levelList (loadOpenOrdersFromDb c2Db) "AAPL" true 100 ∧
    (levelList (loadOpenOrdersFromDb c2Db) "AAPL" false 100).Pairwise leCA :=
  ⟨(C9_recovery c2Db).2.1 c2Buy (by simp [c2Db]) (by decide),
   (C9_recovery c2Db).2.2.2 "AAPL" false 100⟩

/-- Claim C10 (failing input): the prices "100.00" and "100" are
equal-looking decimals with the same numeric value, yet the book keys its
levels by the raw strings: the two orders land in two distinct levels
while the float-keyed price array collapses them to the single price 100.
The matcher's lookup `String(100) = "100"` can only ever reach the "100"
level — order 1 under key "100.00" is stranded, so equal decimals do not
compare equal throughout the book and matcher. -/
theorem C10_equal_decimals_split_levels :
    parseDec "100.00" = parseDec "100" ∧
    c10Book.asks.map Prod.fst = ["100.00", "100"] ∧
    c10Book.askPrices = [parseDec "100"] ∧
    bestAskLevelStr c10Book = some [c10B] := by
  refine ⟨?_, ?_, ?_, ?_⟩ <;> with_unfolding_all rfl

/-!
### C5: price-time priority

`addOrderToBook` appends at the tail of a level and the matcher always
consumes the level head, so within one price level the engine is FIFO.
`FifoInv` is shown to be preserved by every kind of loop iteration and by
every queued order; the claim follows from the final invariant. -/

theorem bool_not_ne (i : Bool) : (!i) ≠ i := by cases i <;> simp

theorem bool_eq_not_of_ne {i s : Bool} (h : i ≠ s) : i = !s := by
  cases i <;> cases s <;> simp_all

theorem sideOf_as_oppMap (b : Book) (s : Bool) : sideOf b s = oppMap b (!s) := by
  cases s <;> rfl

theorem oppMap_as_sideOf (b : Book) (j : Bool) : oppMap b j = sideOf b (!j) := by
  cases j <;> rfl

theorem NotInMap_opp {b : Book} {oid : Nat} (hb : NotInMap b.bids oid)
    (ha : NotInMap b.asks oid) (j : Bool) : NotInMap (oppMap b j) oid := by
  cases j
  · exact hb
  · exact ha

theorem NotInMap_sides {b : Book} {oid : Nat}
    (h : ∀ j : Bool, NotInMap (oppMap b j) oid) :
    NotInMap b.bids oid ∧ NotInMap b.asks oid :=
  ⟨h false, h true⟩

theorem oppMap_setOppMap_other (b : Book) (i : Bool)
    (m : List (ℚ × List Order)) (j : Bool) (h : j ≠ i) :
    oppMap (setOppMap b i m) j = oppMap b j := by
  cases i <;> cases j <;> first | rfl | exact absurd rfl h

theorem oppMap_setLevel_other (b : Book) (i : Bool) (p : ℚ) (l : List Order)
    (j : Bool) (h : j ≠ i) :
    oppMap (setLevel b i p l) j = oppMap b j :=
  oppMap_setOppMap_other b i _ j h

theorem oppMap_dropHeadClean_other (b : Book) (i : Bool) (p : ℚ)
    (rest : List Order) (j : Bool) (h : j ≠ i) :
    oppMap (dropHeadClean b i p rest) j = oppMap b j := by
  unfold dropHeadClean
  split
  · rw [oppMap_setOppPrices, oppMap_setOppMap_other b i _ j h]
  · exact oppMap_setLevel_other b i p rest j h

theorem oppMap_commitBook_other (b : Book) (i : Bool) (p : ℚ)
    (resting : Order) (rest : List Order) (newRem : ℚ) (j : Bool) (h : j ≠ i) :
    oppMap (commitBook b i p resting rest newRem) j = oppMap b j := by
  unfold commitBook
  split
  · exact oppMap_dropHeadClean_other b i p rest j h
  · exact oppMap_setLevel_other b i p _ j h

theorem alSet_cons_eq {κ α : Type} [DecidableEq κ] (k0 : κ) (v0 : α)
    (rest : List (κ × α)) (k' : κ) (v' : α) (h : k0 = k') :
    alSet ((k0, v0) :: rest) k' v' = (k', v') :: rest := by
  simp [alSet, h]

theorem alSet_cons_ne {κ α : Type} [DecidableEq κ] (k0 : κ) (v0 : α)
    (rest : List (κ × α)) (k' : κ) (v' : α) (h : ¬ k0 = k') :
    alSet ((k0, v0) :: rest) k' v' = (k0, v0) :: alSet rest k' v' := by
  simp [alSet, h]

theorem mem_keys_alSet {κ α : Type} [DecidableEq κ] {m : List (κ × α)}
    {k x : κ} {v : α} (h : x ∈ (alSet m k v).map Prod.fst) :
    x = k ∨ x ∈ m.map Prod.fst := by
  induction m with
  | nil =>
    simp [alSet] at h
    exact Or.inl h
  | cons kv rest ih =>
    obtain ⟨k0, v0⟩ := kv
    by_cases hk : k0 = k
    · rw [alSet_cons_eq k0 v0 rest k v hk, List.map_cons, List.mem_cons] at h
      rcases h with h | h
      · exact Or.inl h
      · exact Or.inr (by rw [List.map_cons, List.mem_cons]; exact Or.inr h)
    · rw [alSet_cons_ne k0 v0 rest k v hk, List.map_cons, List.mem_cons] at h
      rcases h with h | h
      · exact Or.inr (by rw [List.map_cons, List.mem_cons]; exact Or.inl h)
      · rcases ih h with h' | h'
        · exact Or.inl h'
        · exact Or.inr (by rw [List.map_cons, List.mem_cons]; exact Or.inr h')

theorem keys_alSet_nodup {κ α : Type} [DecidableEq κ] {m : List (κ × α)}
    (k : κ) (v : α) (h : (m.map Prod.fst).Nodup) :
    ((alSet m k v).map Prod.fst).Nodup := by
  induction m with
  | nil => simp [alSet]
  | cons kv rest ih =>
    obtain ⟨k0, v0⟩ := kv
    rw [List.map_cons, List.nodup_cons] at h
    by_cases hk : k0 = k
    · rw [alSet_cons_eq k0 v0 rest k v hk, List.map_cons, List.nodup_cons]
      rw [hk] at h
      exact h
    · rw [alSet_cons_ne k0 v0 rest k v hk, List.map_cons, List.nodup_cons]
      refine ⟨?_, ih h.2⟩
      intro hmem
      rcases mem_keys_alSet hmem with h' | h'
      · exact hk h'
      · exact h.1 h'

theorem alDel_sublist {κ α : Type} [DecidableEq κ] (m : List (κ × α)) (k : κ) :
    List.Sublist (alDel m k) m := by
  induction m with
  | nil => exact List.Sublist.refl []
  | cons kv rest ih =>
    obtain ⟨k0, v0⟩ := kv
    simp only [alDel]
    split
    · exact List.Sublist.cons _ (List.Sublist.refl rest)
    · exact List.Sublist.cons₂ _ ih

theorem keys_alDel_nodup {κ α : Type} [DecidableEq κ] (m : List (κ × α))
    (k : κ) (h : (m.map Prod.fst).Nodup) :
    ((alDel m k).map Prod.fst).Nodup :=
  List.Nodup.sublist ((alDel_sublist m k).map Prod.fst) h

theorem mem_alSet_ne_key {κ α : Type} [DecidableEq κ] {m : List (κ × α)}
    {k : κ} {v : α} {kl : κ × α} (h : kl ∈ alSet m k v) (hk : kl.1 ≠ k) :
    kl ∈ m := by
  induction m with
  | nil =>
    have hkl : kl = (k, v) := List.mem_singleton.mp h
    subst hkl
    exact absurd rfl hk
  | cons kv rest ih =>
    obtain ⟨k0, v0⟩ := kv
    by_cases h0 : k0 = k
    · rw [alSet_cons_eq k0 v0 rest k v h0] at h
      rcases List.mem_cons.mp h with h | h
      · subst h
        exact absurd rfl hk
      · exact List.mem_cons_of_mem _ h
    · rw [alSet_cons_ne k0 v0 rest k v h0] at h
      rcases List.mem_cons.mp h with h | h
      · subst h
        exact List.mem_cons_self _ _
      · exact List.mem_cons_of_mem _ (ih h)

theorem mem_alSet_eq_key {κ α : Type} [DecidableEq κ] {m : List (κ × α)}
    {k : κ} {v : α} {kl : κ × α} (hnd : (m.map Prod.fst).Nodup)
    (h : kl ∈ alSet m k v) (hk : kl.1 = k) : kl = (k, v) := by
  induction m with
  | nil =>
    exact List.mem_singleton.mp h
  | cons kv rest ih =>
    obtain ⟨k0, v0⟩ := kv
    rw [List.map_cons, List.nodup_cons] at hnd
    by_cases h0 : k0 = k
    · rw [alSet_cons_eq k0 v0 rest k v h0] at h
      rcases List.mem_cons.mp h with h | h
      · exact h
      · have hmem : kl.1 ∈ rest.map Prod.fst := List.mem_map_of_mem Prod.fst h
        rw [hk, ← h0] at hmem
        exact absurd hmem hnd.1
    · rw [alSet_cons_ne k0 v0 rest k v h0] at h
      rcases List.mem_cons.mp h with h | h
      · subst h
        exact absurd hk h0
      · exact ih hnd.2 h

theorem WFKeys_opp {b : Book} (h : WFKeys b) (i : Bool) :
    ((oppMap b i).map Prod.fst).Nodup := by
  cases i
  · exact h.1
  · exact h.2

theorem WFKeys_setOppMap (b : Book) (i : Bool) (m : List (ℚ × List Order))
    (hm : (m.map Prod.fst).Nodup) (h : WFKeys b) : WFKeys (setOppMap b i m) := by
  cases i
  · exact ⟨hm, h.2⟩
  · exact ⟨h.1, hm⟩

theorem WFKeys_setOppPrices (b : Book) (i : Bool) (ps : List ℚ)
    (h : WFKeys b) : WFKeys (setOppPrices b i ps) := by
  cases i <;> exact h

theorem WFKeys_priceCut (b : Book) (i : Bool) (p : ℚ) (h : WFKeys b) :
    WFKeys (priceCut b i p) :=
  WFKeys_setOppPrices b i _ h

theorem WFKeys_setLevel (b : Book) (i : Bool) (p : ℚ) (l : List Order)
    (h : WFKeys b) : WFKeys (setLevel b i p l) :=
  WFKeys_setOppMap b i _ (keys_alSet_nodup p l (WFKeys_opp h i)) h

theorem WFKeys_dropHeadClean (b : Book) (i : Bool) (p : ℚ) (rest : List Order)
    (h : WFKeys b) : WFKeys (dropHeadClean b i p rest) := by
  unfold dropHeadClean
  split
  · exact WFKeys_setOppPrices _ i _
      (WFKeys_setOppMap b i _ (keys_alDel_nodup _ p (WFKeys_opp h i)) h)
  · exact WFKeys_setLevel b i p rest h

theorem WFKeys_commitBook (b : Book) (i : Bool) (p : ℚ) (resting : Order)
    (rest : List Order) (newRem : ℚ) (h : WFKeys b) :
    WFKeys (commitBook b i p resting rest newRem) := by
  unfold commitBook
  split
  · exact WFKeys_dropHeadClean b i p rest h
  · exact WFKeys_setLevel b i p _ h

theorem FifoInv_book_congr (A B : Order) (sel : Bool) (p : ℚ) (base : Nat)
    {b b' : Book} (db : Db) (hb : b'.bids = b.bids) (ha : b'.asks = b.asks)
    (h : FifoInv A B sel p base b db) : FifoInv A B sel p base b' db := by
  have hs : ∀ s : Bool, sideOf b' s = sideOf b s := by
    intro s
    cases s <;> simp [sideOf, hb, ha]
  unfold FifoInv WFKeys at h ⊢
  simp only [hs, hb, ha]
  exact h

theorem fifo_cut (A B : Order) (sel : Bool) (p : ℚ) (base : Nat)
    (b : Book) (db : Db) (i : Bool) (bp : ℚ)
    (h : FifoInv A B sel p base b db) :
    FifoInv A B sel p base (priceCut b i bp) db := by
  refine FifoInv_book_congr A B sel p base db ?_ ?_ h
  · cases i <;> rfl
  · cases i <;> rfl

theorem NotInMap_alSet_tail (m : List (ℚ × List Order)) (bp : ℚ)
    (resting : Order) (restTail : List Order) (oid : Nat)
    (hget : alGet m bp = some (resting :: restTail)) (hm : NotInMap m oid) :
    NotInMap (alSet m bp restTail) oid :=
  NotInMap_alSet m bp restTail oid hm
    (fun e he => hm _ (alGet_mem hget) e (List.mem_cons_of_mem _ he))

theorem NotInMap_alSet_headUpd (m : List (ℚ × List Order)) (bp : ℚ)
    (resting : Order) (restTail : List Order) (newRem : ℚ) (oid : Nat)
    (hget : alGet m bp = some (resting :: restTail)) (hm : NotInMap m oid) :
    NotInMap
      (alSet m bp ({ resting with remaining_quantity := newRem } :: restTail))
      oid := by
  refine NotInMap_alSet m bp _ oid hm ?_
  intro e he
  rcases List.mem_cons.mp he with h | h
  · subst h
    exact hm _ (alGet_mem hget) resting (List.mem_cons_self _ _)
  · exact hm _ (alGet_mem hget) e (List.mem_cons_of_mem _ h)

theorem NotInMap_opp_setLevelTail (b : Book) (i : Bool) (bp : ℚ)
    (resting : Order) (restTail : List Order) (oid : Nat)
    (hget : alGet (oppMap b i) bp = some (resting :: restTail))
    (hm : NotInMap (oppMap b i) oid) :
    NotInMap (oppMap (setLevel b i bp restTail) i) oid := by
  rw [oppMap_setLevel_same]
  exact NotInMap_alSet_tail _ bp resting restTail oid hget hm

theorem NotInMap_opp_dropHeadClean (b : Book) (i : Bool) (bp : ℚ)
    (resting : Order) (restTail : List Order) (oid : Nat)
    (hget : alGet (oppMap b i) bp = some (resting :: restTail))
    (hm : NotInMap (oppMap b i) oid) :
    NotInMap (oppMap (dropHeadClean b i bp restTail) i) oid := by
  rw [oppMap_dropHeadClean_same]
  split
  · exact NotInMap_alDel _ bp oid hm
  · exact NotInMap_alSet_tail _ bp resting restTail oid hget hm

theorem NotInMap_opp_commitBook (b : Book) (i : Bool) (bp : ℚ)
    (resting : Order) (restTail : List Order) (newRem : ℚ) (oid : Nat)
    (hget : alGet (oppMap b i) bp = some (resting :: restTail))
    (hm : NotInMap (oppMap b i) oid) :
    NotInMap (oppMap (commitBook b i bp resting restTail newRem) i) oid := by
  rw [oppMap_commitBook_same]
  split
  · split
    · exact NotInMap_alDel _ bp oid hm
    · exact NotInMap_alSet_tail _ bp resting restTail oid hget hm
  · exact NotInMap_alSet_headUpd _ bp resting restTail newRem oid hget hm

theorem offkey_alSet (m : List (ℚ × List Order)) (bp p : ℚ) (v : List Order)
    (a bid : Nat)
    (hoff : ∀ kl ∈ m, kl.1 ≠ p → ∀ e ∈ kl.2, e.id ≠ a ∧ e.id ≠ bid)
    (hv : bp ≠ p → ∀ e ∈ v, e.id ≠ a ∧ e.id ≠ bid) :
    ∀ kl ∈ alSet m bp v, kl.1 ≠ p → ∀ e ∈ kl.2, e.id ≠ a ∧ e.id ≠ bid := by
  intro kl hkl hne e he
  rcases mem_alSet hkl with h | h
  · subst h
    exact hv hne e he
  · exact hoff kl h hne e he

theorem offkey_alDel (m : List (ℚ × List Order)) (bp p : ℚ) (a bid : Nat)
    (hoff : ∀ kl ∈ m, kl.1 ≠ p → ∀ e ∈ kl.2, e.id ≠ a ∧ e.id ≠ bid) :
    ∀ kl ∈ alDel m bp, kl.1 ≠ p → ∀ e ∈ kl.2, e.id ≠ a ∧ e.id ≠ bid :=
  fun kl hkl hne e he => hoff kl (mem_alDel hkl) hne e he

theorem trades_commitDb (db : Db) (incoming resting rRow inRow : Order)
    (q : ℚ) :
    (commitDb db incoming resting rRow inRow q).trades =
      db.trades ++ [theTrade incoming db resting q] := rfl

theorem findRow_commitDb_other (db : Db) (incoming resting rRow inRow : Order)
    (q : ℚ) (oid : Nat) (h1 : oid ≠ resting.id) (h2 : oid ≠ incoming.id) :
    findRow (commitDb db incoming resting rRow inRow q).orders oid =
      findRow db.orders oid := by
  simp only [commitDb]
  rw [findRow_updateRow, findRow_updateRow]
  cases h : findRow db.orders oid with
  | none => rfl
  | some r =>
    have hid := (findRow_mem h).2
    simp only [Option.map_some']
    rw [if_neg (show r.id ≠ resting.id by rw [hid]; exact h1)]
    rw [if_neg (show r.id ≠ incoming.id by rw [hid]; exact h2)]

theorem findRow_commitDb_resting (db : Db) (incoming resting rRow inRow : Order)
    (q : ℚ) (hfr : findRow db.orders resting.id = some rRow)
    (hne : resting.id ≠ incoming.id) :
    findRow (commitDb db incoming resting rRow inRow q).orders resting.id =
      some { rRow with
        remaining_quantity := rRow.remaining_quantity - q,
        status := if rRow.remaining_quantity - q = 0 then "filled"
          else "partially_filled" } := by
  simp only [commitDb]
  rw [findRow_updateRow, findRow_updateRow, hfr]
  have hid := (findRow_mem hfr).2
  simp only [Option.map_some']
  rw [if_pos hid]
  rw [if_neg (show ({ rRow with
      remaining_quantity := rRow.remaining_quantity - q,
      status := if rRow.remaining_quantity - q = 0 then "filled"
        else "partially_filled" } : Order).id ≠ incoming.id by
    rw [mk_update_id, hid]; exact hne)]

theorem hitsLeg_theTrade (incoming : Order) (db : Db) (resting : Order)
    (q : ℚ) (oid : Nat) (h : hitsLeg (theTrade incoming db resting q) oid) :
    oid = incoming.id ∨ oid = resting.id := by
  unfold hitsLeg theTrade at h
  dsimp only at h
  rcases h with h | h <;> split at h
  all_goals first
    | exact Or.inl h.symm
    | exact Or.inr h.symm

theorem not_hitsLeg_theTrade (incoming : Order) (db : Db) (resting : Order)
    (q : ℚ) (oid : Nat) (h1 : oid ≠ incoming.id) (h2 : oid ≠ resting.id) :
    ¬ hitsLeg (theTrade incoming db resting q) oid := by
  intro h
  rcases hitsLeg_theTrade incoming db resting q oid h with h' | h'
  · exact h1 h'
  · exact h2 h'

theorem drop_base_append (l : List Trade) (t : Trade) (base : Nat)
    (h : base ≤ l.length) : (l ++ [t]).drop base = l.drop base ++ [t] := by
  rw [List.drop_append_eq_append_drop, Nat.sub_eq_zero_of_le h, List.drop_zero]

theorem noleg_append (l : List Trade) (t : Trade) (base : Nat) (oid : Nat)
    (h : base ≤ l.length) (hl : ∀ T ∈ l.drop base, ¬ hitsLeg T oid)
    (ht : ¬ hitsLeg t oid) :
    ∀ T ∈ (l ++ [t]).drop base, ¬ hitsLeg T oid := by
  rw [drop_base_append l t base h]
  intro T hT
  rcases List.mem_append.mp hT with h' | h'
  · exact hl T h'
  · have hTt : T = t := List.mem_singleton.mp h'
    subst hTt
    exact ht

theorem fifoSplit_append (l : List Trade) (t : Trade) (base n : Nat)
    (oidA oidB : Nat) (hb : base ≤ l.length) (hn : n ≤ l.length - base)
    (hA : ∀ T ∈ (l.drop base).drop n, ¬ hitsLeg T oidA)
    (hB : ∀ T ∈ (l.drop base).take n, ¬ hitsLeg T oidB)
    (htA : ¬ hitsLeg t oidA) :
    n ≤ (l ++ [t]).length - base ∧
    (∀ T ∈ ((l ++ [t]).drop base).drop n, ¬ hitsLeg T oidA) ∧
    (∀ T ∈ ((l ++ [t]).drop base).take n, ¬ hitsLeg T oidB) := by
  have hlen : (l.drop base).length = l.length - base := List.length_drop base l
  have hlap : (l ++ [t]).length = l.length + 1 := by simp
  refine ⟨by omega, ?_, ?_⟩
  · rw [drop_base_append l t base hb, List.drop_append_eq_append_drop]
    intro T hT
    rcases List.mem_append.mp hT with h' | h'
    · exact hA T h'
    · have hTt : T = t := List.mem_singleton.mp (List.drop_subset _ _ h')
      subst hTt
      exact htA
  · rw [drop_base_append l t base hb, List.take_append_eq_append_take]
    have h0 : n - (l.drop base).length = 0 := by omega
    rw [h0, List.take_zero, List.append_nil]
    exact hB

/-- `FifoInv` is preserved by a drained-head shift (`avail <= 0`), on
either side and at any price. -/
theorem fifo_drop (A B : Order) (sel : Bool) (p : ℚ) (base : Nat)
    (b : Book) (db : Db) (i : Bool) (bp : ℚ) (resting : Order)
    (restTail : List Order)
    (hget : alGet (oppMap b i) bp = some (resting :: restTail))
    (hav : resting.remaining_quantity ≤ 0)
    (h : FifoInv A B sel p base b db) :
    FifoInv A B sel p base (dropHeadClean b i bp restTail) db := by
  obtain ⟨hbase, hkeys, hmain⟩ := h
  refine ⟨hbase, WFKeys_dropHeadClean b i bp restTail hkeys, ?_⟩
  rcases hmain with
    ⟨l1, l2, remA, hlev, hpos, hB, hf1, hf2, hrow, hoff, hoa, hob, hnb⟩ |
    ⟨hrowA, hba, haa, hn⟩
  · by_cases hi : i = !sel
    · subst hi
      have hmap : oppMap b (!sel) = sideOf b sel := (sideOf_as_oppMap b sel).symm
      rw [hmap] at hget
      have hsame : sideOf (dropHeadClean b (!sel) bp restTail) sel =
          if restTail = [] then alDel (sideOf b sel) bp
          else alSet (sideOf b sel) bp restTail := by
        rw [sideOf_as_oppMap, oppMap_dropHeadClean_same, hmap]
      have hother : sideOf (dropHeadClean b (!sel) bp restTail) (!sel) =
          sideOf b (!sel) := by
        rw [sideOf_as_oppMap, sideOf_as_oppMap]
        exact oppMap_dropHeadClean_other b (!sel) bp restTail (!(!sel))
          (bool_not_ne (!sel))
      by_cases hbp : bp = p
      · subst hbp
        have heq : resting :: restTail =
            l1 ++ { A with remaining_quantity := remA } :: l2 := by
          rw [hget] at hlev
          exact Option.some.inj hlev
        cases l1 with
        | nil =>
          exfalso
          rw [List.nil_append] at heq
          injection heq with h1 h2
          rw [h1] at hav
          exact absurd hav (not_le.mpr hpos)
        | cons e0 l1' =>
          rw [List.cons_append] at heq
          injection heq with h1 h2
          subst h2
          have hne : l1' ++ { A with remaining_quantity := remA } :: l2 ≠ [] := by
            simp
          refine Or.inl ⟨l1', l2, remA, ?_, hpos, hB,
            fun e he => hf1 e (List.mem_cons_of_mem _ he), hf2, hrow, ?_,
            ?_, ?_, hnb⟩
          · rw [hsame, if_neg hne, alGet_alSet, if_pos rfl]
          · rw [hsame, if_neg hne]
            exact offkey_alSet _ bp bp _ A.id B.id hoff (fun hc => absurd rfl hc)
          · rw [hother]; exact hoa
          · rw [hother]; exact hob
      · refine Or.inl ⟨l1, l2, remA, ?_, hpos, hB, hf1, hf2, hrow, ?_,
          ?_, ?_, hnb⟩
        · rw [hsame]
          split
          · rw [alGet_alDel_ne _ hbp]; exact hlev
          · rw [alGet_alSet, if_neg hbp]; exact hlev
        · rw [hsame]
          split
          · exact offkey_alDel _ bp p A.id B.id hoff
          · refine offkey_alSet _ bp p restTail A.id B.id hoff ?_
            intro hc e he
            exact hoff _ (alGet_mem hget) hc e (List.mem_cons_of_mem _ he)
        · rw [hother]; exact hoa
        · rw [hother]; exact hob
    · have hisel : i = sel := by
        cases i <;> cases sel <;> simp_all
      subst hisel
      have hAside : sideOf (dropHeadClean b i bp restTail) i = sideOf b i := by
        rw [sideOf_as_oppMap, sideOf_as_oppMap]
        exact oppMap_dropHeadClean_other b i bp restTail (!i) (bool_not_ne i)
      have hoa' : NotInMap (sideOf (dropHeadClean b i bp restTail) (!i)) A.id := by
        rw [← oppMap_as_sideOf]
        exact NotInMap_opp_dropHeadClean b i bp resting restTail A.id hget
          (by rw [oppMap_as_sideOf]; exact hoa)
      have hob' : NotInMap (sideOf (dropHeadClean b i bp restTail) (!i)) B.id := by
        rw [← oppMap_as_sideOf]
        exact NotInMap_opp_dropHeadClean b i bp resting restTail B.id hget
          (by rw [oppMap_as_sideOf]; exact hob)
      exact Or.inl ⟨l1, l2, remA, by rw [hAside]; exact hlev, hpos, hB, hf1,
        hf2, hrow, by rw [hAside]; exact hoff, hoa', hob', hnb⟩
  · obtain ⟨n, hnle, hnA, hnB⟩ := hn
    have hAom : ∀ j, NotInMap (oppMap (dropHeadClean b i bp restTail) j) A.id := by
      intro j
      by_cases hj : j = i
      · subst hj
        exact NotInMap_opp_dropHeadClean b j bp resting restTail A.id hget
          (NotInMap_opp hba haa j)
      · rw [oppMap_dropHeadClean_other b i bp restTail j hj]
        exact NotInMap_opp hba haa j
    obtain ⟨hb', ha'⟩ := NotInMap_sides hAom
    exact Or.inr ⟨hrowA, hb', ha', n, hnle, hnA, hnB⟩

/-- `FifoInv` is preserved by a rollback shift (missing or drained durable
row), on either side and at any price. -/
theorem fifo_shift (A B : Order) (sel : Bool) (p : ℚ) (base : Nat)
    (b : Book) (db : Db) (i : Bool) (bp : ℚ) (resting : Order)
    (restTail : List Order)
    (hget : alGet (oppMap b i) bp = some (resting :: restTail))
    (hbad : findRow db.orders resting.id = none ∨
      ∃ rRow, findRow db.orders resting.id = some rRow ∧
        rRow.remaining_quantity ≤ 0)
    (h : FifoInv A B sel p base b db) :
    FifoInv A B sel p base (setLevel b i bp restTail) db := by
  obtain ⟨hbase, hkeys, hmain⟩ := h
  refine ⟨hbase, WFKeys_setLevel b i bp restTail hkeys, ?_⟩
  rcases hmain with
    ⟨l1, l2, remA, hlev, hpos, hB, hf1, hf2, hrow, hoff, hoa, hob, hnb⟩ |
    ⟨hrowA, hba, haa, hn⟩
  · by_cases hi : i = !sel
    · subst hi
      have hmap : oppMap b (!sel) = sideOf b sel := (sideOf_as_oppMap b sel).symm
      rw [hmap] at hget
      have hsame : sideOf (setLevel b (!sel) bp restTail) sel =
          alSet (sideOf b sel) bp restTail := by
        rw [sideOf_as_oppMap, oppMap_setLevel_same, hmap]
      have hother : sideOf (setLevel b (!sel) bp restTail) (!sel) =
          sideOf b (!sel) := by
        rw [sideOf_as_oppMap, sideOf_as_oppMap]
        exact oppMap_setLevel_other b (!sel) bp restTail (!(!sel))
          (bool_not_ne (!sel))
      by_cases hbp : bp = p
      · subst hbp
        have heq : resting :: restTail =
            l1 ++ { A with remaining_quantity := remA } :: l2 := by
          rw [hget] at hlev
          exact Option.some.inj hlev
        cases l1 with
        | nil =>
          exfalso
          rw [List.nil_append] at heq
          injection heq with h1 h2
          obtain ⟨rowA, hra, hsyncA⟩ := hrow
          rw [h1] at hbad
          have hbad' : findRow db.orders A.id = none ∨
              ∃ rRow, findRow db.orders A.id = some rRow ∧
                rRow.remaining_quantity ≤ 0 := hbad
          rcases hbad' with hx | ⟨rRow, hx, hle⟩
          · rw [hra] at hx
            exact Option.noConfusion hx
          · rw [hra] at hx
            have hrr : rowA = rRow := Option.some.inj hx
            rw [← hrr] at hle
            rw [hsyncA] at hle
            exact absurd hle (not_le.mpr hpos)
        | cons e0 l1' =>
          rw [List.cons_append] at heq
          injection heq with h1 h2
          subst h2
          refine Or.inl ⟨l1', l2, remA, ?_, hpos, hB,
            fun e he => hf1 e (List.mem_cons_of_mem _ he), hf2, hrow, ?_,
            ?_, ?_, hnb⟩
          · rw [hsame, alGet_alSet, if_pos rfl]
          · rw [hsame]
            exact offkey_alSet _ bp bp _ A.id B.id hoff (fun hc => absurd rfl hc)
          · rw [hother]; exact hoa
          · rw [hother]; exact hob
      · refine Or.inl ⟨l1, l2, remA, ?_, hpos, hB, hf1, hf2, hrow, ?_,
          ?_, ?_, hnb⟩
        · rw [hsame, alGet_alSet, if_neg hbp]; exact hlev
        · rw [hsame]
          refine offkey_alSet _ bp p restTail A.id B.id hoff ?_
          intro hc e he
          exact hoff _ (alGet_mem hget) hc e (List.mem_cons_of_mem _ he)
        · rw [hother]; exact hoa
        · rw [hother]; exact hob
    · have hisel : i = sel := by
        cases i <;> cases sel <;> simp_all
      subst hisel
      have hAside : sideOf (setLevel b i bp restTail) i = sideOf b i := by
        rw [sideOf_as_oppMap, sideOf_as_oppMap]
        exact oppMap_setLevel_other b i bp restTail (!i) (bool_not_ne i)
      have hoa' : NotInMap (sideOf (setLevel b i bp restTail) (!i)) A.id := by
        rw [← oppMap_as_sideOf]
        exact NotInMap_opp_setLevelTail b i bp resting restTail A.id hget
          (by rw [oppMap_as_sideOf]; exact hoa)
      have hob' : NotInMap (sideOf (setLevel b i bp restTail) (!i)) B.id := by
        rw [← oppMap_as_sideOf]
        exact NotInMap_opp_setLevelTail b i bp resting restTail B.id hget
          (by rw [oppMap_as_sideOf]; exact hob)
      exact Or.inl ⟨l1, l2, remA, by rw [hAside]; exact hlev, hpos, hB, hf1,
        hf2, hrow, by rw [hAside]; exact hoff, hoa', hob', hnb⟩
  · obtain ⟨n, hnle, hnA, hnB⟩ := hn
    have hAom : ∀ j, NotInMap (oppMap (setLevel b i bp restTail) j) A.id := by
      intro j
      by_cases hj : j = i
      · subst hj
        exact NotInMap_opp_setLevelTail b j bp resting restTail A.id hget
          (NotInMap_opp hba haa j)
      · rw [oppMap_setLevel_other b i bp restTail j hj]
        exact NotInMap_opp hba haa j
    obtain ⟨hb', ha'⟩ := NotInMap_sides hAom
    exact Or.inr ⟨hrowA, hb', ha', n, hnle, hnA, hnB⟩

/-- `FifoInv` is preserved by a committed durability unit, provided the
incoming order carries neither tracked id.  A unit against `A` itself
either keeps phase one (positive leftover) or moves to phase two
(drained); a unit against anything else leaves `A`'s row alone and never
emits a `B`-legged trade while phase one holds. -/
theorem fifo_commit (A B : Order) (sel : Bool) (p : ℚ) (base : Nat)
    (b : Book) (db : Db) (incoming : Order) (rem : ℚ) (bp : ℚ)
    (resting : Order) (restTail : List Order) (rRow inRow : Order)
    (hincA : incoming.id ≠ A.id) (hincB : incoming.id ≠ B.id)
    (hrem : ¬ rem ≤ 0)
    (hget : alGet (oppMap b (isBuySide incoming)) bp = some (resting :: restTail))
    (hav : ¬ resting.remaining_quantity ≤ 0)
    (hfr : findRow db.orders resting.id = some rRow)
    (hdbav : ¬ rRow.remaining_quantity ≤ 0)
    (h : FifoInv A B sel p base b db) :
    FifoInv A B sel p base
      (commitBook b (isBuySide incoming) bp resting restTail
        (rRow.remaining_quantity -
          min (min rem resting.remaining_quantity) rRow.remaining_quantity))
      (commitDb db incoming resting rRow inRow
        (min (min rem resting.remaining_quantity) rRow.remaining_quantity)) := by
  set q := min (min rem resting.remaining_quantity) rRow.remaining_quantity
    with hq
  obtain ⟨hbase, hkeys, hmain⟩ := h
  have hq0 : 0 < q := by
    rw [hq]
    exact lt_min (lt_min (not_le.mp hrem) (not_le.mp hav)) (not_le.mp hdbav)
  have hqle : q ≤ rRow.remaining_quantity := by
    rw [hq]
    exact min_le_right _ _
  have htr : (commitDb db incoming resting rRow inRow q).trades =
      db.trades ++ [theTrade incoming db resting q] := rfl
  have hbase' : base ≤ (commitDb db incoming resting rRow inRow q).trades.length := by
    rw [htr, List.length_append]
    exact le_trans hbase (Nat.le_add_right _ _)
  refine ⟨hbase', WFKeys_commitBook b _ bp resting restTail _ hkeys, ?_⟩
  rcases hmain with
    ⟨l1, l2, remA, hlev, hpos, hB, hf1, hf2, ⟨rowA, hra, hsyncA⟩, hoff, hoa, hob, hnb⟩ |
    ⟨⟨rowA, hra, hr0⟩, hba, haa, n, hnle, hnA, hnB⟩
  · have hBA : B.id ≠ A.id := by
      obtain ⟨e, he, heid⟩ := List.mem_map.mp hB
      rw [← heid]
      exact hf2 e he
    by_cases hi : isBuySide incoming = !sel
    · rw [hi] at hget ⊢
      have hmap : oppMap b (!sel) = sideOf b sel := (sideOf_as_oppMap b sel).symm
      rw [hmap] at hget
      have hsame : oppMap (commitBook b (!sel) bp resting restTail
          (rRow.remaining_quantity - q)) (!sel) =
          if rRow.remaining_quantity - q = 0 then
            (if restTail = [] then alDel (sideOf b sel) bp
             else alSet (sideOf b sel) bp restTail)
          else alSet (sideOf b sel) bp
            ({ resting with remaining_quantity := rRow.remaining_quantity - q }
              :: restTail) := by
        rw [oppMap_commitBook_same, hmap]
      have hother : sideOf (commitBook b (!sel) bp resting restTail
          (rRow.remaining_quantity - q)) (!sel) = sideOf b (!sel) := by
        rw [sideOf_as_oppMap, sideOf_as_oppMap]
        exact oppMap_commitBook_other b (!sel) bp resting restTail _ (!(!sel))
          (bool_not_ne (!sel))
      by_cases hbp : bp = p
      · have hbps : p = bp := hbp.symm
        subst hbps
        have heq : resting :: restTail =
            l1 ++ { A with remaining_quantity := remA } :: l2 := by
          rw [hget] at hlev
          exact Option.some.inj hlev
        cases l1 with
        | nil =>
          rw [List.nil_append] at heq
          injection heq with h1 h2
          have h2s : l2 = restTail := h2.symm
          subst h2s
          have hfr' : findRow db.orders A.id = some rRow := by
            rw [h1] at hfr
            exact hfr
          have hrr : rowA = rRow := by
            rw [hra] at hfr'
            exact Option.some.inj hfr'
          have hsyncR : rRow.remaining_quantity = remA := by
            rw [← hrr]
            exact hsyncA
          have hl2ne : l2 ≠ [] := by
            intro hc
            rw [hc] at hB
            simp at hB
          have hrne : resting.id ≠ incoming.id := by
            rw [h1]
            exact Ne.symm hincA
          have hx := findRow_commitDb_resting db incoming resting rRow inRow q
            hfr hrne
          have hxA : findRow (commitDb db incoming resting rRow inRow q).orders
              A.id = some { rRow with
                remaining_quantity := rRow.remaining_quantity - q,
                status := if rRow.remaining_quantity - q = 0 then "filled"
                  else "partially_filled" } := by
            have hid : resting.id = A.id := by rw [h1]
            rw [hid] at hx
            exact hx
          have htB : ¬ hitsLeg (theTrade incoming db resting q) B.id := by
            refine not_hitsLeg_theTrade incoming db resting q B.id
              (Ne.symm hincB) ?_
            rw [h1]
            exact hBA
          by_cases hz : rRow.remaining_quantity - q = 0
          · have hndsel : ((sideOf b sel).map Prod.fst).Nodup := by
              cases sel
              · exact hkeys.2
              · exact hkeys.1
            have hNsel : NotInMap (alSet (sideOf b sel) p l2) A.id := by
              intro kl hkl e he
              by_cases hk : kl.1 = p
              · have hkl2 := mem_alSet_eq_key hndsel hkl hk
                rw [hkl2] at he
                exact hf2 e he
              · exact (hoff kl (mem_alSet_ne_key hkl hk) hk e he).1
            have hAom : ∀ j, NotInMap (oppMap (commitBook b (!sel) p resting l2
                (rRow.remaining_quantity - q)) j) A.id := by
              intro j
              by_cases hj : j = !sel
              · subst hj
                rw [hsame, if_pos hz, if_neg hl2ne]
                exact hNsel
              · have hj' : sel = j := by
                  cases j <;> cases sel <;> simp_all
                subst hj'
                rw [oppMap_commitBook_other b (!sel) p resting l2 _ sel
                  (fun hc => hj hc)]
                rw [oppMap_as_sideOf]
                exact hoa
            have hsides := NotInMap_sides hAom
            refine Or.inr ⟨⟨{ rRow with
                remaining_quantity := rRow.remaining_quantity - q,
                status := if rRow.remaining_quantity - q = 0 then "filled"
                  else "partially_filled" }, hxA, ?_⟩, hsides.1, hsides.2, ?_⟩
            · rw [mk_update_rem]
              exact hz
            · rw [htr]
              have hall : ∀ T ∈ (db.trades ++
                  [theTrade incoming db resting q]).drop base,
                  ¬ hitsLeg T B.id :=
                noleg_append db.trades _ base B.id hbase hnb htB
              refine ⟨((db.trades ++
                [theTrade incoming db resting q]).drop base).length, ?_, ?_, ?_⟩
              · rw [List.length_drop]
              · rw [List.drop_length]
                intro T hT
                simp at hT
              · rw [List.take_length]
                exact hall
          · refine Or.inl ⟨[], l2, rRow.remaining_quantity - q, ?_, ?_, hB, ?_,
              hf2, ⟨{ rRow with
                remaining_quantity := rRow.remaining_quantity - q,
                status := if rRow.remaining_quantity - q = 0 then "filled"
                  else "partially_filled" }, hxA, mk_update_rem rRow _ _⟩,
              ?_, ?_, ?_, ?_⟩
            · rw [sideOf_as_oppMap, hsame, if_neg hz, alGet_alSet, if_pos rfl,
                h1]
              rfl
            · have hge : 0 ≤ rRow.remaining_quantity - q := sub_nonneg.mpr hqle
              exact lt_of_le_of_ne hge (Ne.symm hz)
            · intro e he
              exact absurd he (List.not_mem_nil e)
            · rw [sideOf_as_oppMap, hsame, if_neg hz]
              exact offkey_alSet _ p p _ A.id B.id hoff (fun hc => absurd rfl hc)
            · rw [hother]
              exact hoa
            · rw [hother]
              exact hob
            · rw [htr]
              exact noleg_append db.trades _ base B.id hbase hnb htB
        | cons e0 l1' =>
          rw [List.cons_append] at heq
          injection heq with h1 h2
          subst h2
          have hrA : resting.id ≠ A.id := by
            rw [h1]
            exact (hf1 e0 (List.mem_cons_self _ _)).1
          have hrB : resting.id ≠ B.id := by
            rw [h1]
            exact (hf1 e0 (List.mem_cons_self _ _)).2
          have hrowA' : findRow (commitDb db incoming resting rRow inRow
              q).orders A.id = some rowA := by
            rw [findRow_commitDb_other db incoming resting rRow inRow q A.id
              (Ne.symm hrA) (Ne.symm hincA)]
            exact hra
          have hnoB : ∀ T ∈ (commitDb db incoming resting rRow inRow
              q).trades.drop base, ¬ hitsLeg T B.id := by
            rw [htr]
            exact noleg_append db.trades _ base B.id hbase hnb
              (not_hitsLeg_theTrade incoming db resting q B.id
                (Ne.symm hincB) (Ne.symm hrB))
          by_cases hz : rRow.remaining_quantity - q = 0
          · have hne : l1' ++ { A with remaining_quantity := remA } :: l2 ≠ [] := by
              simp
            refine Or.inl ⟨l1', l2, remA, ?_, hpos, hB,
              fun e he => hf1 e (List.mem_cons_of_mem _ he), hf2,
              ⟨rowA, hrowA', hsyncA⟩, ?_, ?_, ?_, hnoB⟩
            · rw [sideOf_as_oppMap, hsame, if_pos hz, if_neg hne, alGet_alSet,
                if_pos rfl]
            · rw [sideOf_as_oppMap, hsame, if_pos hz, if_neg hne]
              exact offkey_alSet _ p p _ A.id B.id hoff (fun hc => absurd rfl hc)
            · rw [hother]
              exact hoa
            · rw [hother]
              exact hob
          · refine Or.inl ⟨{ resting with
                remaining_quantity := rRow.remaining_quantity - q } :: l1',
              l2, remA, ?_, hpos, hB, ?_, hf2, ⟨rowA, hrowA', hsyncA⟩,
              ?_, ?_, ?_, hnoB⟩
            · rw [sideOf_as_oppMap, hsame, if_neg hz, alGet_alSet, if_pos rfl]
              rfl
            · intro e he
              rcases List.mem_cons.mp he with hh | hh
              · subst hh
                exact ⟨hrA, hrB⟩
              · exact hf1 e (List.mem_cons_of_mem _ hh)
            · rw [sideOf_as_oppMap, hsame, if_neg hz]
              exact offkey_alSet _ p p _ A.id B.id hoff (fun hc => absurd rfl hc)
            · rw [hother]
              exact hoa
            · rw [hother]
              exact hob
      · have hrAB : resting.id ≠ A.id ∧ resting.id ≠ B.id :=
          hoff (bp, resting :: restTail) (alGet_mem hget) hbp resting
            (List.mem_cons_self _ _)
        refine Or.inl ⟨l1, l2, remA, ?_, hpos, hB, hf1, hf2, ⟨rowA, ?_,
          hsyncA⟩, ?_, ?_, ?_, ?_⟩
        · rw [sideOf_as_oppMap, hsame]
          split
          · split
            · rw [alGet_alDel_ne _ hbp]
              exact hlev
            · rw [alGet_alSet, if_neg hbp]
              exact hlev
          · rw [alGet_alSet, if_neg hbp]
            exact hlev
        · rw [findRow_commitDb_other db incoming resting rRow inRow q A.id
            (Ne.symm hrAB.1) (Ne.symm hincA)]
          exact hra
        · rw [sideOf_as_oppMap, hsame]
          split
          · split
            · exact offkey_alDel _ bp p A.id B.id hoff
            · refine offkey_alSet _ bp p restTail A.id B.id hoff ?_
              intro hc e he
              exact hoff _ (alGet_mem hget) hc e (List.mem_cons_of_mem _ he)
          · refine offkey_alSet _ bp p _ A.id B.id hoff ?_
            intro hc e he
            rcases List.mem_cons.mp he with hh | hh
            · subst hh
              exact hoff _ (alGet_mem hget) hc resting (List.mem_cons_self _ _)
            · exact hoff _ (alGet_mem hget) hc e (List.mem_cons_of_mem _ hh)
        · rw [hother]
          exact hoa
        · rw [hother]
          exact hob
        · rw [htr]
          exact noleg_append db.trades _ base B.id hbase hnb
            (not_hitsLeg_theTrade incoming db resting q B.id
              (Ne.symm hincB) (Ne.symm hrAB.2))
    · have hisel : isBuySide incoming = sel := by
        cases hx : isBuySide incoming <;> cases sel <;> simp_all
      rw [hisel] at hget ⊢
      have hget' : alGet (sideOf b (!sel)) bp = some (resting :: restTail) := by
        rw [← oppMap_as_sideOf]
        exact hget
      have hrA : resting.id ≠ A.id :=
        hoa _ (alGet_mem hget') resting (List.mem_cons_self _ _)
      have hrB : resting.id ≠ B.id :=
        hob _ (alGet_mem hget') resting (List.mem_cons_self _ _)
      have hAside : sideOf (commitBook b sel bp resting restTail
          (rRow.remaining_quantity - q)) sel = sideOf b sel := by
        rw [sideOf_as_oppMap, sideOf_as_oppMap]
        exact oppMap_commitBook_other b sel bp resting restTail _ (!sel)
          (bool_not_ne sel)
      have hoa' : NotInMap (sideOf (commitBook b sel bp resting restTail
          (rRow.remaining_quantity - q)) (!sel)) A.id := by
        rw [← oppMap_as_sideOf]
        exact NotInMap_opp_commitBook b sel bp resting restTail _ A.id hget
          (by rw [oppMap_as_sideOf]; exact hoa)
      have hob' : NotInMap (sideOf (commitBook b sel bp resting restTail
          (rRow.remaining_quantity - q)) (!sel)) B.id := by
        rw [← oppMap_as_sideOf]
        exact NotInMap_opp_commitBook b sel bp resting restTail _ B.id hget
          (by rw [oppMap_as_sideOf]; exact hob)
      refine Or.inl ⟨l1, l2, remA, by rw [hAside]; exact hlev, hpos, hB, hf1,
        hf2, ⟨rowA, ?_, hsyncA⟩, by rw [hAside]; exact hoff, hoa', hob', ?_⟩
      · rw [findRow_commitDb_other db incoming resting rRow inRow q A.id
          (Ne.symm hrA) (Ne.symm hincA)]
        exact hra
      · rw [htr]
        exact noleg_append db.trades _ base B.id hbase hnb
          (not_hitsLeg_theTrade incoming db resting q B.id
            (Ne.symm hincB) (Ne.symm hrB))
  · have hrA : resting.id ≠ A.id :=
      NotInMap_opp hba haa (isBuySide incoming) _ (alGet_mem hget) resting
        (List.mem_cons_self _ _)
    have hAom : ∀ j, NotInMap (oppMap (commitBook b (isBuySide incoming) bp
        resting restTail (rRow.remaining_quantity - q)) j) A.id := by
      intro j
      by_cases hj : j = isBuySide incoming
      · subst hj
        exact NotInMap_opp_commitBook b (isBuySide incoming) bp resting
          restTail _ A.id hget (NotInMap_opp hba haa (isBuySide incoming))
      · rw [oppMap_commitBook_other b _ bp resting restTail _ j hj]
        exact NotInMap_opp hba haa j
    have hsides := NotInMap_sides hAom
    have htA : ¬ hitsLeg (theTrade incoming db resting q) A.id :=
      not_hitsLeg_theTrade incoming db resting q A.id (Ne.symm hincA)
        (Ne.symm hrA)
    obtain ⟨h1', h2', h3'⟩ := fifoSplit_append db.trades
      (theTrade incoming db resting q) base n A.id B.id hbase hnle hnA hnB htA
    refine Or.inr ⟨⟨rowA, ?_, hr0⟩, hsides.1, hsides.2, ?_⟩
    · rw [findRow_commitDb_other db incoming resting rRow inRow q A.id
        (Ne.symm hrA) (Ne.symm hincA)]
      exact hra
    · rw [htr]
      exact ⟨n, h1', h2', h3'⟩

/-- `FifoInv` is preserved when one entry whose id is neither tracked id
is appended at the tail of any level of either side — the shape
`addOrderToBook` produces. -/
theorem FifoInv_appendOrder (A B : Order) (sel : Bool) (p : ℚ) (base : Nat)
    (b b' : Book) (db : Db) (s : Bool) (k : ℚ) (o : Order)
    (hoA : o.id ≠ A.id) (hoB : o.id ≠ B.id)
    (hs : sideOf b' s =
      alSet (sideOf b s) k ((alGet (sideOf b s) k).getD [] ++ [o]))
    (ho : sideOf b' (!s) = sideOf b (!s))
    (h : FifoInv A B sel p base b db) : FifoInv A B sel p base b' db := by
  obtain ⟨hbase, hkeys, hmain⟩ := h
  have hksel : ∀ j : Bool, ((sideOf b j).map Prod.fst).Nodup := by
    intro j
    cases j
    · exact hkeys.2
    · exact hkeys.1
  have hWj : ∀ j : Bool, ((sideOf b' j).map Prod.fst).Nodup := by
    intro j
    by_cases hj : j = s
    · subst hj
      rw [hs]
      exact keys_alSet_nodup k _ (hksel j)
    · have hj' : j = !s := bool_eq_not_of_ne hj
      rw [hj', ho]
      exact hksel (!s)
  have hW : WFKeys b' := ⟨hWj true, hWj false⟩
  refine ⟨hbase, hW, ?_⟩
  rcases hmain with
    ⟨l1, l2, remA, hlev, hpos, hB, hf1, hf2, hrow, hoff, hoa, hob, hnb⟩ |
    ⟨hrowA, hba, haa, hn⟩
  · by_cases hsel : s = sel
    · have hss : sel = s := hsel.symm
      subst hss
      by_cases hk : k = p
      · have hks : p = k := hk.symm
        subst hks
        have hlev' : alGet (sideOf b' sel) p =
            some ((l1 ++ { A with remaining_quantity := remA } :: l2) ++ [o]) := by
          rw [hs, alGet_alSet, if_pos rfl, hlev]
          rfl
        refine Or.inl ⟨l1, l2 ++ [o], remA, ?_, hpos, ?_, hf1, ?_, hrow,
          ?_, ?_, ?_, hnb⟩
        · rw [hlev', List.append_assoc]
          rfl
        · rw [List.map_append]
          exact List.mem_append_left _ hB
        · intro e he
          rcases List.mem_append.mp he with hh | hh
          · exact hf2 e hh
          · have heo : e = o := List.mem_singleton.mp hh
            rw [heo]
            exact hoA
        · rw [hs]
          exact offkey_alSet _ p p _ A.id B.id hoff (fun hc => absurd rfl hc)
        · rw [ho]; exact hoa
        · rw [ho]; exact hob
      · refine Or.inl ⟨l1, l2, remA, ?_, hpos, hB, hf1, hf2, hrow, ?_,
          ?_, ?_, hnb⟩
        · rw [hs, alGet_alSet, if_neg hk]
          exact hlev
        · rw [hs]
          refine offkey_alSet _ k p _ A.id B.id hoff ?_
          intro hc e he
          rcases List.mem_append.mp he with hh | hh
          · cases hg : alGet (sideOf b sel) k with
            | none =>
              rw [hg] at hh
              simp at hh
            | some lvl =>
              rw [hg] at hh
              exact hoff _ (alGet_mem hg) hc e hh
          · have heo : e = o := List.mem_singleton.mp hh
            rw [heo]
            exact ⟨hoA, hoB⟩
        · rw [ho]; exact hoa
        · rw [ho]; exact hob
    · have hs' : s = !sel := bool_eq_not_of_ne hsel
      subst hs'
      have hnn : (!(!sel)) = sel := Bool.not_not sel
      rw [hnn] at ho
      refine Or.inl ⟨l1, l2, remA, ?_, hpos, hB, hf1, hf2, hrow, ?_,
        ?_, ?_, hnb⟩
      · rw [ho]; exact hlev
      · rw [ho]; exact hoff
      · rw [hs]
        refine NotInMap_alSet _ _ _ _ hoa ?_
        intro e he
        rcases List.mem_append.mp he with hh | hh
        · cases hg : alGet (sideOf b (!sel)) k with
          | none =>
            rw [hg] at hh
            simp at hh
          | some lvl =>
            rw [hg] at hh
            exact hoa _ (alGet_mem hg) e hh
        · have heo : e = o := List.mem_singleton.mp hh
          rw [heo]
          exact hoA
      · rw [hs]
        refine NotInMap_alSet _ _ _ _ hob ?_
        intro e he
        rcases List.mem_append.mp he with hh | hh
        · cases hg : alGet (sideOf b (!sel)) k with
          | none =>
            rw [hg] at hh
            simp at hh
          | some lvl =>
            rw [hg] at hh
            exact hob _ (alGet_mem hg) e hh
        · have heo : e = o := List.mem_singleton.mp hh
          rw [heo]
          exact hoB
  · obtain ⟨n, hnle, hnA, hnB⟩ := hn
    have hbs : ∀ j : Bool, NotInMap (sideOf b j) A.id := by
      intro j
      cases j
      · exact haa
      · exact hba
    have hsides : ∀ j : Bool, NotInMap (sideOf b' j) A.id := by
      intro j
      by_cases hj : j = s
      · subst hj
        rw [hs]
        refine NotInMap_alSet _ _ _ _ (hbs j) ?_
        intro e he
        rcases List.mem_append.mp he with hh | hh
        · cases hg : alGet (sideOf b j) k with
          | none =>
            rw [hg] at hh
            simp at hh
          | some lvl =>
            rw [hg] at hh
            exact hbs j _ (alGet_mem hg) e hh
        · have heo : e = o := List.mem_singleton.mp hh
          rw [heo]
          exact hoA
      · have hj' : j = !s := bool_eq_not_of_ne hj
        rw [hj', ho]
        exact hbs (!s)
    exact Or.inr ⟨hrowA, hsides true, hsides false, n, hnle, hnA, hnB⟩

/-- `FifoInv` is preserved by `addOrderToBook` for an order with neither
tracked id. -/
theorem fifo_addOrder (A B : Order) (sel : Bool) (p : ℚ) (base : Nat)
    (b : Book) (db : Db) (o : Order) (hoA : o.id ≠ A.id) (hoB : o.id ≠ B.id)
    (h : FifoInv A B sel p base b db) :
    FifoInv A B sel p base (addOrderToBook b o) db := by
  unfold addOrderToBook
  split
  · split
    · exact FifoInv_appendOrder A B sel p base b _ db true (jsNum o.price) o
        hoA hoB rfl rfl h
    · exact FifoInv_appendOrder A B sel p base b _ db false (jsNum o.price) o
        hoA hoB rfl rfl h
  · exact h

/-- `FifoInv` is preserved by a whole `matchOrderSync` call for an
incoming order with neither tracked id. -/
theorem fifo_matchOrderSync (A B : Order) (sel : Bool) (p : ℚ) (base : Nat)
    (fuel : Nat) (o : Order) (b : Book) (db : Db)
    (hoA : o.id ≠ A.id) (hoB : o.id ≠ B.id)
    (h : FifoInv A B sel p base b db) :
    FifoInv A B sel p base (matchOrderSync fuel o b db).book
      (matchOrderSync fuel o b db).db := by
  unfold matchOrderSync processIncomingOrder
  dsimp only
  have hb1 : FifoInv A B sel p base
      (if o.otype = "limit" ∧ o.remaining_quantity > 0 then addOrderToBook b o
       else b) db := by
    split
    · exact fifo_addOrder A B sel p base b db o hoA hoB h
    · exact h
  obtain ⟨rem', book', db', acc', e, heq, hP, _⟩ :=
    matchLoop_ind o (fun _ bk d _ => FifoInv A B sel p base bk d)
      (fun rm bk d acc bp _ _ _ hP => fifo_cut A B sel p base bk d _ bp hP)
      (fun rm bk d acc bp resting restTail _ _ hget hav hP =>
        fifo_drop A B sel p base bk d _ bp resting restTail hget hav hP)
      (fun rm bk d acc bp resting restTail h0 _ hget hav hbad hP =>
        fifo_shift A B sel p base bk d _ bp resting restTail hget hbad hP)
      (fun rm bk d acc bp resting restTail rRow inRow h0 _ _ hget hav hfr
          hdbav _ hP =>
        fifo_commit A B sel p base bk d o rm bp resting restTail rRow inRow
          hoA hoB h0 hget hav hfr hdbav hP)
      fuel o.remaining_quantity _ db [] hb1
  rw [heq]
  exact hP

/-- `FifoInv` is preserved by draining a whole queue of orders, none of
which carries a tracked id. -/
theorem fifo_runQueue (A B : Order) (sel : Bool) (p : ℚ) (base : Nat)
    (fuel : Nat) :
    ∀ (queue : List Order) (b : Book) (db : Db),
      (∀ o ∈ queue, o.id ≠ A.id ∧ o.id ≠ B.id) →
      FifoInv A B sel p base b db →
      FifoInv A B sel p base (runQueue fuel queue b db).1
        (runQueue fuel queue b db).2 := by
  intro queue
  induction queue with
  | nil =>
    intro b db _ h
    exact h
  | cons o rest ih =>
    intro b db hq h
    rw [runQueue]
    have hstep := fifo_matchOrderSync A B sel p base fuel o b db
      (hq o (List.mem_cons_self _ _)).1 (hq o (List.mem_cons_self _ _)).2 h
    by_cases he : (matchOrderSync fuel o b db).err
    · rw [if_pos he]
      exact hstep
    · rw [if_neg he]
      exact ih _ _ (fun o' ho' => hq o' (List.mem_cons_of_mem _ ho')) hstep

/-- **C5**: price-time priority.  Let `A` and `B` rest on the same side
`sel` and price level `p` with `A` strictly ahead of `B`, `A`'s durable
row in sync with its positive in-memory remaining, ids unique in the book
(as `addOrderToBook` tail-appends and the matcher head-consumes, the
engine maintains this for distinct orders), and let a queue of incoming
orders be drained, none reusing either id.  Then (1) any committed trade
with `B` as a leg implies `A`'s durable remaining is 0 in the final
store, and (2) the trades committed during the drain split at an index
`n`: all `A`-legged trades come before `n` and no `B`-legged trade does —
`A` is consumed to zero before any quantity of `B` trades. -/
theorem C5_price_time_priority (fuel : Nat) (queue : List Order)
    (book : Book) (db : Db) (A B : Order) (sel : Bool) (p : ℚ)
    (l1 l2 l3 : List Order) (rowA : Order)
    (hlevel : alGet (sideOf book sel) p =
      some (l1 ++ (A :: (l2 ++ (B :: l3)))))
    (hApos : 0 < A.remaining_quantity)
    (hrow : findRow db.orders A.id = some rowA)
    (hsync : rowA.remaining_quantity = A.remaining_quantity)
    (hl1 : ∀ e ∈ l1, e.id ≠ A.id ∧ e.id ≠ B.id)
    (hl2 : ∀ e ∈ l2 ++ (B :: l3), e.id ≠ A.id)
    (hoff : ∀ kl ∈ sideOf book sel, kl.1 ≠ p →
      ∀ e ∈ kl.2, e.id ≠ A.id ∧ e.id ≠ B.id)
    (hoa : NotInMap (sideOf book (!sel)) A.id)
    (hob : NotInMap (sideOf book (!sel)) B.id)
    (hkeys : WFKeys book)
    (hq : ∀ o ∈ queue, o.id ≠ A.id ∧ o.id ≠ B.id) :
    (∀ T ∈ (runQueue fuel queue book db).2.trades.drop db.trades.length,
      hitsLeg T B.id →
      ∃ rowA', findRow (runQueue fuel queue book db).2.orders A.id =
        some rowA' ∧ rowA'.remaining_quantity = 0) ∧
    (∃ n,
      (∀ T ∈ ((runQueue fuel queue book db).2.trades.drop
          db.trades.length).drop n, ¬ hitsLeg T A.id) ∧
      (∀ T ∈ ((runQueue fuel queue book db).2.trades.drop
          db.trades.length).take n, ¬ hitsLeg T B.id)) := by
  have h0 : FifoInv A B sel p db.trades.length book db := by
    refine ⟨le_refl _, hkeys, Or.inl ⟨l1, l2 ++ (B :: l3),
      A.remaining_quantity, ?_, hApos, ?_, hl1, hl2, ⟨rowA, hrow, hsync⟩,
      hoff, hoa, hob, ?_⟩⟩
    · exact hlevel
    · exact List.mem_map_of_mem Order.id
        (List.mem_append_right _ (List.mem_cons_self _ _))
    · intro T hT
      rw [List.drop_length] at hT
      exact absurd hT (List.not_mem_nil T)
  have hfin := fifo_runQueue A B sel p db.trades.length fuel queue book db hq h0
  obtain ⟨hbase, hW, hmain⟩ := hfin
  constructor
  · intro T hT hhit
    rcases hmain with
      ⟨l1x, l2x, remAx, _, _, _, _, _, _, _, _, _, hnb⟩ |
      ⟨⟨rowA', hra', h0'⟩, _, _, _⟩
    · exact absurd hhit (hnb T hT)
    · exact ⟨rowA', hra', h0'⟩
  · rcases hmain with
      ⟨l1x, l2x, remAx, _, _, _, _, _, _, _, _, _, hnb⟩ |
      ⟨_, _, _, n, hnle, hnA, hnB⟩
    · refine ⟨((runQueue fuel queue book db).2.trades.drop
        db.trades.length).length, ?_, ?_⟩
      · intro T hT
        rw [List.drop_length] at hT
        exact absurd hT (List.not_mem_nil T)
      · rw [List.take_length]
        exact hnb
    · exact ⟨n, hnA, hnB⟩

/-- Closed witness for C5 (spec scenario S4): resting asks A (id 1, 5@100,
first) and B (id 2, 5@100, second); an incoming 6-lot buy drains A and one
unit of B.  The second trade has B's id as its sell leg, and the theorem
yields A's durable remaining 0 in the final store. -/
theorem C5_price_time_priority_witness :
    ∃ rowA', findRow (runQueue 4 [c5Buy] c5Book c5Db).2.orders 1 =
      some rowA' ∧ rowA'.remaining_quantity = 0 := by
  have h := C5_price_time_priority 4 [c5Buy] c5Book c5Db c5A c5B false 100
    [] [] [] c5A
    (by with_unfolding_all rfl)
    (of_decide_eq_true (by with_unfolding_all rfl))
    (by with_unfolding_all rfl)
    rfl
    (by intro e he; exact absurd he (List.not_mem_nil e))
    (of_decide_eq_true (by with_unfolding_all rfl))
    (of_decide_eq_true (by with_unfolding_all rfl))
    (by unfold NotInMap; exact of_decide_eq_true (by with_unfolding_all rfl))
    (by unfold NotInMap; exact of_decide_eq_true (by with_unfolding_all rfl))
    (by unfold WFKeys; exact of_decide_eq_true (by with_unfolding_all rfl))
    (of_decide_eq_true (by with_unfolding_all rfl))
  exact h.1 c5TradeB (of_decide_eq_true (by with_unfolding_all rfl))
    (by unfold hitsLeg; exact Or.inr (by with_unfolding_all rfl))

end StockEngine
